import Mathlib

/-!
Verification of the cron repository (robfig/cron corpus).

The Go sources are embedded shallowly:

* `Cron.DateTime` models `time.Time` as a civil Gregorian date-time with
  nanoseconds, in a single fixed location (the embedding is DST-free: all
  schedules here behave as in a fixed-offset zone such as UTC; Go locations
  and DST transitions are outside the model).
* Bit sets (`uint64` in Go) are `Nat` values reduced mod `2^64` where Go
  would wrap.
* Fallible Go functions return `Except String`; Go's zero `time.Time`
  returned by `Next` is modelled as `Option.none`.
* Go loops are embedded as fuelled recursions; fuel exhaustion yields the
  same value as Go's explicit give-up paths and every theorem about a
  *successful* result is therefore independent of the fuel.
-/

namespace Cron

/-- Model of Go `time.Time` (one fixed location, see file header):
a normalized proleptic-Gregorian civil date plus time of day in
nanosecond resolution. -/
structure DateTime where
  year : Nat
  month : Nat
  day : Nat
  hour : Nat
  minute : Nat
  second : Nat
  ns : Nat
deriving DecidableEq, Repr

/-- Gregorian leap-year rule, as written in `spec.go` (`matchDoWForTheLastWeek`)
and `endofmonth.go` (`isLeapYear`). -/
def isLeap (y : Nat) : Bool := (y % 4 == 0 && y % 100 != 0) || y % 400 == 0

/-- Number of days of month `m` in year `y` (Gregorian). -/
def daysInMonth (y m : Nat) : Nat :=
  match m with
  | 2 => if isLeap y then 29 else 28
  | 4 => 30
  | 6 => 30
  | 9 => 30
  | 11 => 30
  | _ => 31

/-- The recursion of `normD`, structurally on a fuel that starts at `d`:
each step removes at least 28 days, so the fuel never runs out before the
day is in range (`normD_eq_body` below recovers the unfuelled equation). -/
def normDGo : Nat → Nat → Nat → Nat → Nat × Nat × Nat
  | 0, y, m, d => (y, m, d)
  | fuel + 1, y, m, d =>
    if daysInMonth y m < d then
      if m ≥ 12 then normDGo fuel (y + 1) 1 (d - daysInMonth y m)
      else normDGo fuel y (m + 1) (d - daysInMonth y m)
    else (y, m, d)

/-- Day-overflow normalization as performed by Go `time.Date`:
roll excess days into the following months. -/
def normD (y m d : Nat) : Nat × Nat × Nat := normDGo d y m d

/-- The month before `(y, m)`. -/
def prevMonth (y m : Nat) : Nat × Nat := if m ≤ 1 then (y - 1, 12) else (y, m - 1)

/-- Move `k` days backwards from the civil date `(y, m, d)` (day-underflow
normalization; only reachable from negative `time.Duration` additions). -/
def subDays (k y m d : Nat) : Nat × Nat × Nat :=
  if d = 0 then (y, m, d)
  else if _h : k < d then (y, m, d - k)
  else
    let p := prevMonth y m
    subDays (k - d) p.1 p.2 (daysInMonth p.1 p.2)
termination_by k
decreasing_by omega

/-- Move `k` days (signed) from the civil date `(y, m, d)`. -/
def addDaysI (k : Int) (y m d : Nat) : Nat × Nat × Nat :=
  if 0 ≤ k then normD y m (d + k.toNat) else subDays (-k).toNat y m d

/-- Go `Time.Add`: add a `time.Duration` (`d` nanoseconds, signed) to an
instant. Carries are propagated through the civil fields; in the DST-free
model this agrees with Go's absolute-instant addition. -/
def addNS (d : Int) (t : DateTime) : DateTime :=
  let total : Int := (t.ns : Int) + d
  let ns' : Nat := (total % 1000000000).toNat
  let s : Int := (t.second : Int) + total / 1000000000
  let sec' : Nat := (s % 60).toNat
  let mi : Int := (t.minute : Int) + s / 60
  let min' : Nat := (mi % 60).toNat
  let h : Int := (t.hour : Int) + mi / 60
  let hr' : Nat := (h % 24).toNat
  let ymd := addDaysI (h / 24) t.year t.month t.day
  ⟨ymd.1, ymd.2.1, ymd.2.2, hr', min', sec', ns'⟩

/-- The fields of a realizable `time.Time` value. -/
def Valid (t : DateTime) : Prop :=
  1 ≤ t.year ∧ 1 ≤ t.month ∧ t.month ≤ 12 ∧ 1 ≤ t.day ∧
    t.day ≤ daysInMonth t.year t.month ∧ t.hour ≤ 23 ∧ t.minute ≤ 59 ∧
    t.second ≤ 59 ∧ t.ns < 1000000000

instance (t : DateTime) : Decidable (Valid t) := by unfold Valid; infer_instance

/-- Number of leap years in `[1, y]`. -/
def leapsBefore (y : Nat) : Nat := y / 4 - y / 100 + y / 400

/-- Days before month `m` inside year `y`. -/
def daysBeforeMonth (y m : Nat) : Nat :=
  (match m with
   | 1 => 0 | 2 => 31 | 3 => 59 | 4 => 90 | 5 => 120 | 6 => 151
   | 7 => 181 | 8 => 212 | 9 => 243 | 10 => 273 | 11 => 304 | _ => 334)
  + (if 3 ≤ m ∧ isLeap y then 1 else 0)

/-- Days from 0001-01-01 to the civil date `(y, m, d)` (proleptic Gregorian). -/
def daysSinceYear1 (y m d : Nat) : Nat :=
  365 * (y - 1) + leapsBefore (y - 1) + daysBeforeMonth y m + (d - 1)

/-- Linearization of an instant: nanoseconds since 0001-01-01T00:00:00.
Go compares `time.Time` values as absolute instants; in the single-location
model that order is exactly the order of `toNS`. -/
def toNS (t : DateTime) : Int :=
  ((((daysSinceYear1 t.year t.month t.day) * 24 + t.hour) * 60 + t.minute) * 60
      + t.second : Nat) * 1000000000 + t.ns

/-- Go `Time.Weekday` (Sunday = 0). 0001-01-01 is a Monday in the
proleptic Gregorian calendar. -/
def weekday (t : DateTime) : Nat := (daysSinceYear1 t.year t.month t.day + 1) % 7

/-- Go `t.After(u)`: strict instant order. -/
def dtAfter (t u : DateTime) : Bool := decide (toNS u < toNS t)

/-- Go `1<<uint(v) & bits != 0` on `uint64` values. -/
def goBit (bits v : Nat) : Bool := (((1 <<< v) % 18446744073709551616) &&& bits) != 0

/-- `starBit` from `spec.go`: the top bit of a field's `uint64`. -/
def starBit : Nat := 1 <<< 63

/-- `Extra` from `spec.go`: the nth-day-of-the-week extension carried by a
`SpecSchedule`. -/
structure Extra where
  DayOfWeek : Nat
  WeekNumber : Nat
  LastWeek : Bool
  Valid : Bool
deriving DecidableEq, Repr

/-- `SpecSchedule` from `spec.go`. The `Location` pointer is not modelled
(single-location embedding, see the file header). -/
structure SpecSchedule where
  Second : Nat
  Minute : Nat
  Hour : Nat
  Dom : Nat
  Month : Nat
  Dow : Nat
  Extra : Extra
deriving DecidableEq, Repr

/-- `matchDayOfTheWeekAndWeekInMonth` from `spec.go`. -/
def matchDayOfTheWeekAndWeekInMonth (t : DateTime) (weekInTheMonth dayOfTheWeek : Nat) : Bool :=
  let valid :=
    match weekInTheMonth with
    | 1 => decide (t.day ≤ 7 ∧ 1 ≤ t.day)
    | 2 => decide (t.day ≤ 14 ∧ 8 ≤ t.day)
    | 3 => decide (t.day ≤ 21 ∧ 15 ≤ t.day)
    | 4 => decide (t.day ≤ 28 ∧ 22 ≤ t.day)
    | _ => false
  if !valid then false
  else
    match weekday t with
    | 0 => dayOfTheWeek == 0
    | 1 => dayOfTheWeek == 1
    | 2 => dayOfTheWeek == 2
    | 3 => dayOfTheWeek == 3
    | 4 => dayOfTheWeek == 4
    | 5 => dayOfTheWeek == 5
    | 6 => dayOfTheWeek == 6
    | _ => false

/-- `matchLastWeekDOW` from `spec.go`. The Go `int` subtraction
`numberOfDaysInMonth - t.Day()` is only compared with `> 6`, so `Nat`
truncation is faithful on every input. -/
def matchLastWeekDOW (numberOfDaysInMonth : Nat) (t : DateTime) (dow : Nat) : Bool :=
  if 6 < numberOfDaysInMonth - t.day then false
  else
    match weekday t with
    | 0 => dow == 0
    | 1 => dow == 1
    | 2 => dow == 2
    | 3 => dow == 3
    | 4 => dow == 4
    | 5 => dow == 5
    | 6 => dow == 6
    | _ => false

/-- `matchDoWForTheLastWeek` from `spec.go` (local leap-year computation as
in the source). -/
def matchDoWForTheLastWeek (t : DateTime) (dow : Nat) : Bool :=
  let leapYear : Bool :=
    (t.year % 4 == 0 && t.year % 100 != 0) || t.year % 400 == 0
  match t.month with
  | 4 => matchLastWeekDOW 30 t dow
  | 6 => matchLastWeekDOW 30 t dow
  | 9 => matchLastWeekDOW 30 t dow
  | 11 => matchLastWeekDOW 30 t dow
  | 2 => if leapYear then matchLastWeekDOW 29 t dow else matchLastWeekDOW 28 t dow
  | _ => matchLastWeekDOW 31 t dow

/-- `dayMatches` from `spec.go`: the early `return true` paths of the Extra
extension become the left disjunct. -/
def dayMatches (s : SpecSchedule) (t : DateTime) : Bool :=
  let extraMatch :=
    s.Extra.Valid &&
      (if s.Extra.LastWeek then matchDoWForTheLastWeek t s.Extra.DayOfWeek
       else matchDayOfTheWeekAndWeekInMonth t s.Extra.WeekNumber s.Extra.DayOfWeek)
  let domMatch := goBit s.Dom t.day
  let dowMatch := goBit s.Dow (weekday t)
  extraMatch ||
    (if (s.Dom &&& starBit) != 0 || (s.Dow &&& starBit) != 0 then domMatch && dowMatch
     else domMatch || dowMatch)

/-- Go `time.Date(y, m, d, h, mi, s, 0, loc)` (day-overflow normalized,
nanoseconds zero). -/
def dateYMDHMS (y m d h mi s : Nat) : DateTime :=
  let x := normD y m d
  ⟨x.1, x.2.1, x.2.2, h, mi, s, 0⟩

/-- Go `t.AddDate(0, 1, 0)`. -/
def addMonthGo (t : DateTime) : DateTime :=
  let ym : Nat × Nat := if t.month == 12 then (t.year + 1, 1) else (t.year, t.month + 1)
  let x := normD ym.1 ym.2 t.day
  ⟨x.1, x.2.1, x.2.2, t.hour, t.minute, t.second, t.ns⟩

/-- Go `t.AddDate(0, 0, 1)`. -/
def addDayGo (t : DateTime) : DateTime :=
  let x := normD t.year t.month (t.day + 1)
  ⟨x.1, x.2.1, x.2.2, t.hour, t.minute, t.second, t.ns⟩

/-- Result of one of the field loops inside `SpecSchedule.Next`: either the
field matched (`done`, fall through to the next loop) or the loop wrapped
around (`wrap`, i.e. `goto WRAP` in the source). -/
inductive Step where
  | done (t : DateTime) (added : Bool)
  | wrap (t : DateTime) (added : Bool)
deriving DecidableEq, Repr

/-- The month loop of `SpecSchedule.Next` (`spec.go`). The loop body runs at
most 12 times before matching or wrapping past December; the fuel (always
called with 14) never runs out on a `Valid` instant. -/
def monthLoop (s : SpecSchedule) : Nat → DateTime → Bool → Step
  | 0, t, added => .wrap t added
  | fuel + 1, t, added =>
    if goBit s.Month t.month then .done t added
    else
      let ta : DateTime × Bool :=
        if !added then (dateYMDHMS t.year t.month 1 0 0 0, true) else (t, added)
      let t2 := addMonthGo ta.1
      if t2.month == 1 then .wrap t2 ta.2
      else monthLoop s fuel t2 ta.2

/-- The DST fixup inside the day loop of `SpecSchedule.Next` (`spec.go`):
"Notice if the hour is no longer midnight due to DST."  In the DST-free
model the guard is provably false on all reachable states. -/
def dstFix (t2 : DateTime) : DateTime :=
  if t2.hour != 0 then
    if 12 < t2.hour then addNS ((24 - (t2.hour : Int)) * 3600000000000) t2
    else addNS (-(t2.hour : Int) * 3600000000000) t2
  else t2

/-- The day loop of `SpecSchedule.Next` (`spec.go`), including the DST fixup
branch of the source. Always called with fuel 40 ≥ 31 + 1 days. -/
def dayLoop (s : SpecSchedule) : Nat → DateTime → Bool → Step
  | 0, t, added => .wrap t added
  | fuel + 1, t, added =>
    if dayMatches s t then .done t added
    else
      let ta : DateTime × Bool :=
        if !added then (dateYMDHMS t.year t.month t.day 0 0 0, true) else (t, added)
      let t3 := dstFix (addDayGo ta.1)
      if t3.day == 1 then .wrap t3 ta.2
      else dayLoop s fuel t3 ta.2

/-- The hour loop of `SpecSchedule.Next` (`spec.go`). Always called with
fuel 26 ≥ 24 + 1. -/
def hourLoop (s : SpecSchedule) : Nat → DateTime → Bool → Step
  | 0, t, added => .wrap t added
  | fuel + 1, t, added =>
    if goBit s.Hour t.hour then .done t added
    else
      let ta : DateTime × Bool :=
        if !added then (dateYMDHMS t.year t.month t.day t.hour 0 0, true) else (t, added)
      let t2 := addNS 3600000000000 ta.1
      if t2.hour == 0 then .wrap t2 ta.2
      else hourLoop s fuel t2 ta.2

/-- The minute loop of `SpecSchedule.Next` (`spec.go`); the reset is Go
`t.Truncate(time.Minute)`. Always called with fuel 62. -/
def minuteLoop (s : SpecSchedule) : Nat → DateTime → Bool → Step
  | 0, t, added => .wrap t added
  | fuel + 1, t, added =>
    if goBit s.Minute t.minute then .done t added
    else
      let ta : DateTime × Bool :=
        if !added then ({ t with second := 0, ns := 0 }, true) else (t, added)
      let t2 := addNS 60000000000 ta.1
      if t2.minute == 0 then .wrap t2 ta.2
      else minuteLoop s fuel t2 ta.2

/-- The second loop of `SpecSchedule.Next` (`spec.go`); the reset is Go
`t.Truncate(time.Second)`. Always called with fuel 62. -/
def secondLoop (s : SpecSchedule) : Nat → DateTime → Bool → Step
  | 0, t, added => .wrap t added
  | fuel + 1, t, added =>
    if goBit s.Second t.second then .done t added
    else
      let ta : DateTime × Bool :=
        if !added then ({ t with ns := 0 }, true) else (t, added)
      let t2 := addNS 1000000000 ta.1
      if t2.second == 0 then .wrap t2 ta.2
      else secondLoop s fuel t2 ta.2

/-- The `WRAP` loop of `SpecSchedule.Next` (`spec.go`). One unit of fuel is
one arrival at the `WRAP` label; between two arrivals the searched instant
advances by at least one minute, so `2^25` units cover far more than the
five-year search window and the fuel cannot run out before the year-limit
check fires. -/
def wrapLoop (s : SpecSchedule) (yearLimit : Nat) : Nat → DateTime → Bool → Option DateTime
  | 0, _, _ => none
  | fuel + 1, t, added =>
    if yearLimit < t.year then none
    else
      match monthLoop s 14 t added with
      | .wrap t' a' => wrapLoop s yearLimit fuel t' a'
      | .done t1 a1 =>
        match dayLoop s 40 t1 a1 with
        | .wrap t' a' => wrapLoop s yearLimit fuel t' a'
        | .done t2 a2 =>
          match hourLoop s 26 t2 a2 with
          | .wrap t' a' => wrapLoop s yearLimit fuel t' a'
          | .done t3 a3 =>
            match minuteLoop s 62 t3 a3 with
            | .wrap t' a' => wrapLoop s yearLimit fuel t' a'
            | .done t4 a4 =>
              match secondLoop s 62 t4 a4 with
              | .wrap t' a' => wrapLoop s yearLimit fuel t' a'
              | .done t5 _ => some t5

/-- `SpecSchedule.Next` from `spec.go`. The leading location conversion is
the identity in the single-location model; the zero `time.Time` result is
`none`. -/
def SpecSchedule.next (s : SpecSchedule) (t : DateTime) : Option DateTime :=
  let t1 := addNS (1000000000 - (t.ns : Int)) t
  wrapLoop s (t1.year + 5) 33554432 t1 false

/-! ## The crontab parser (`parser.go`)

Strings are handled as `List Char`.  `Option (Except String α)` is the
result of a fallible Go function whose computation may also fail to
terminate: `none` models non-termination (only the `getBits` loop can
diverge), `some (.error e)` a returned error, `some (.ok a)` success. -/

/-- `ConstantDelaySchedule` from `constantdelay.go` (the plain revision
without `startAt`); `Delay` is a `time.Duration` in nanoseconds. -/
structure ConstantDelaySchedule where
  Delay : Int
deriving DecidableEq, Repr

/-- `Every` from `constantdelay.go`: no clamping, no truncation. -/
def Every (duration : Int) : ConstantDelaySchedule := ⟨duration⟩

/-- `ConstantDelaySchedule.Next` from `constantdelay.go`: `t.Add(Delay)`. -/
def ConstantDelaySchedule.next (schedule : ConstantDelaySchedule) (t : DateTime) : DateTime :=
  addNS schedule.Delay t

/-- The `Schedule` interface values that `Parse` can return. -/
inductive Schedule where
  | spec (s : SpecSchedule)
  | const (c : ConstantDelaySchedule)
deriving DecidableEq, Repr

/-- `bounds` from `spec.go`. -/
structure bounds where
  min : Nat
  max : Nat
  names : List (List Char × Nat)
deriving DecidableEq, Repr

def seconds : bounds := ⟨0, 59, []⟩
def minutes : bounds := ⟨0, 59, []⟩
def hours : bounds := ⟨0, 23, []⟩
def dom : bounds := ⟨1, 31, []⟩
def months : bounds :=
  ⟨1, 12, [("jan".toList, 1), ("feb".toList, 2), ("mar".toList, 3), ("apr".toList, 4),
           ("may".toList, 5), ("jun".toList, 6), ("jul".toList, 7), ("aug".toList, 8),
           ("sep".toList, 9), ("oct".toList, 10), ("nov".toList, 11), ("dec".toList, 12)]⟩
def dow : bounds :=
  ⟨0, 6, [("sun".toList, 0), ("mon".toList, 1), ("tue".toList, 2), ("wed".toList, 3),
          ("thu".toList, 4), ("fri".toList, 5), ("sat".toList, 6)]⟩

/-- `strings.Split(s, sep)` for a one-character separator: empty substrings
are kept. -/
def splitOnChar (c : Char) : List Char → List (List Char)
  | [] => [[]]
  | x :: xs =>
    let r := splitOnChar c xs
    if x == c then [] :: r else (x :: r.headD []) :: r.tail

/-- `strings.FieldsFunc(s, r == ',')`: empty substrings are dropped. -/
def fieldsFuncComma (s : List Char) : List (List Char) :=
  (splitOnChar ',' s).filter (· ≠ [])

/-- `strings.Fields`: split around runs of whitespace. -/
def fieldsWS (s : List Char) : List (List Char) :=
  (s.splitOnP (fun c => c == ' ' || c == '\t' || c == '\n' || c == '\r')).filter (· ≠ [])

/-- Go `strconv.Atoi` (sign handling; the int64 range check is not
modelled, it is unreachable for the small field values of a crontab). -/
def atoi (s : List Char) : Except String Int :=
  let core : List Char → Except String Int := fun ds =>
    if ds ≠ [] ∧ ds.all Char.isDigit then
      .ok (ds.foldl (fun a c => a * 10 + (c.toNat - 48)) (0 : Int))
    else .error "strconv.Atoi: parsing: invalid syntax"
  match s with
  | '+' :: rest => core rest
  | '-' :: rest => (core rest).map Int.neg
  | _ => core s

/-- `mustParseInt` from `parser.go`.  Note: in the negative branch the
source wraps the *nil* error from the successful `Atoi` call
(`errors.Wrapf(nil, ...)` returns `nil`), so a negative literal is
returned as value `0` with no error. -/
def mustParseInt (expr : List Char) : Except String Nat :=
  match atoi expr with
  | .error err => .error ("failed to parse int from " ++ expr.asString ++ ": " ++ err)
  | .ok num => if num < 0 then .ok 0 else .ok num.toNat

/-- `parseIntOrName` from `parser.go`. -/
def parseIntOrName (expr : List Char) (names : List (List Char × Nat)) : Except String Nat :=
  match names.lookup (expr.map Char.toLower) with
  | some namedInt => .ok namedInt
  | none => mustParseInt expr

def maxUint64 : Nat := 18446744073709551615

/-- The `for i := min; i <= max; i += step` loop of `getBits`
(`parser.go`): `none` models the loop still running after `fuel`
iterations; for `step = 0` with `i ≤ max` the loop never terminates. -/
def getBitsLoop (mx step : Nat) : Nat → Nat → Nat → Option Nat
  | 0, _, _ => none
  | fuel + 1, i, bits =>
    if i ≤ mx then getBitsLoop mx step fuel (i + step) (bits ||| ((1 <<< i) % 18446744073709551616))
    else some bits

/-- `getBits` from `parser.go`.  For `step ≥ 1` at most 62 iterations are
possible, so fuel 100 is exact. -/
def getBits (mn mx step : Nat) : Option Nat :=
  if step = 1 then
    some ((maxUint64 ^^^ ((maxUint64 <<< (mx + 1)) % 18446744073709551616)) &&&
      ((maxUint64 <<< mn) % 18446744073709551616))
  else getBitsLoop mx step 100 mn 0

/-- `all` from `parser.go`. -/
def allBits (r : bounds) : Option Nat := (getBits r.min r.max 1).map (· ||| starBit)

/-- `getRange` from `parser.go`. -/
def getRange (expr : List Char) (r : bounds) : Option (Except String Nat) :=
  let rangeAndStep := splitOnChar '/' expr
  let lowAndHigh := splitOnChar '-' (rangeAndStep.headD [])
  let singleDigit := lowAndHigh.length == 1
  let sef : Except String (Nat × Nat × Nat) :=
    if lowAndHigh.headD [] = ['*'] ∨ lowAndHigh.headD [] = ['?'] then
      .ok (r.min, r.max, starBit)
    else
      match parseIntOrName (lowAndHigh.headD []) r.names with
      | .error err => .error ("failed to parse range start: " ++ err)
      | .ok start =>
        match lowAndHigh with
        | [_] => .ok (start, start, 0)
        | [_, hi] =>
          match parseIntOrName hi r.names with
          | .error err => .error ("failed to parse range end: " ++ err)
          | .ok e => .ok (start, e, 0)
        | _ => .error ("too many hyphens: " ++ expr.asString)
  match sef with
  | .error e => some (.error e)
  | .ok (start, end0, extraStar) =>
    let stepE : Except String (Nat × Nat) :=
      match rangeAndStep with
      | [_] => .ok (1, end0)
      | [_, st] =>
        match mustParseInt st with
        | .error err => .error ("faild to parse integer: " ++ err)
        | .ok step => .ok (step, if singleDigit then r.max else end0)
      | _ => .error ("too many slashes: " ++ expr.asString)
    match stepE with
    | .error e => some (.error e)
    | .ok (step, end1) =>
      if start < r.min then some (.error ("beginning of range below minimum: " ++ expr.asString))
      else if r.max < end1 then some (.error ("end of range above maximum: " ++ expr.asString))
      else if end1 < start then some (.error ("beginning of range beyond end of range: " ++ expr.asString))
      else
        match getBits start end1 step with
        | none => none
        | some bits => some (.ok (bits ||| extraStar))

/-- The range-accumulation loop of `getField` (`parser.go`). -/
def getFieldGo (r : bounds) : List (List Char) → Nat → Option (Except String Nat)
  | [], bits => some (.ok bits)
  | e :: rest, bits =>
    match getRange e r with
    | none => none
    | some (.error err) => some (.error ("failed to compute range: " ++ err))
    | some (.ok computed) => getFieldGo r rest (bits ||| computed)

/-- `getField` from `parser.go`. -/
def getField (field : List Char) (r : bounds) : Option (Except String Nat) :=
  getFieldGo r (fieldsFuncComma field) 0

/-- Sequencing for fallible, possibly diverging Go computations. -/
def pbind (x : Option (Except String α)) (f : α → Option (Except String β)) :
    Option (Except String β) :=
  match x with
  | none => none
  | some (.error e) => some (.error e)
  | some (.ok a) => f a

/-- `getf` from `Parse` (`parser.go`), composed with the field assignment:
the `SpecSchedule.set` method is absent from `src/` (only its call site is
present); per the spec, it stores the parsed bit set in the field named by
`name`, which is what the caller below does directly. -/
def getf (name : String) (s : List Char) (r : bounds) : Option (Except String Nat) :=
  match getField s r with
  | none => none
  | some (.error err) => some (.error ("invalid value for " ++ name ++ ": " ++ err))
  | some (.ok f) => some (.ok f)

/-- Modelled from the Go standard library `time.ParseDuration` (outside
`src/`), restricted to a single integer-with-unit component; enough for
the `@every` descriptor, which no claim depends on. -/
def parseGoDuration (s : List Char) : Except String Int :=
  let num := s.takeWhile Char.isDigit
  let unit := s.dropWhile Char.isDigit
  if num = [] then .error "time: invalid duration"
  else
    let n : Int := num.foldl (fun a c => a * 10 + (c.toNat - 48)) (0 : Int)
    match unit with
    | ['n', 's'] => .ok n
    | ['u', 's'] => .ok (n * 1000)
    | ['m', 's'] => .ok (n * 1000000)
    | ['s'] => .ok (n * 1000000000)
    | ['m'] => .ok (n * 60000000000)
    | ['h'] => .ok (n * 3600000000000)
    | _ => .error "time: unknown unit in duration"

/-- `parseDescriptor` from `parser.go`. -/
def parseDescriptor (spec : List Char) : Option (Except String Schedule) :=
  if spec.take 7 = "@every ".toList then
    match parseGoDuration (spec.drop 7) with
    | .error err => some (.error ("failed to parse duration: " ++ err))
    | .ok duration => some (.ok (.const (Every duration)))
  else
    pbind (allBits dow |>.map .ok) fun allDow =>
    pbind (allBits months |>.map .ok) fun allMonths =>
    pbind (allBits dom |>.map .ok) fun allDom =>
    pbind (allBits hours |>.map .ok) fun allHours =>
    let base : SpecSchedule :=
      ⟨1 <<< seconds.min, 1 <<< minutes.min, 1 <<< hours.min,
       1 <<< dom.min, 1 <<< months.min, 1 <<< dow.min, ⟨0, 0, false, false⟩⟩
    if spec = "@yearly".toList ∨ spec = "@annually".toList then
      some (.ok (.spec { base with Dow := allDow }))
    else if spec = "@monthly".toList then
      some (.ok (.spec { base with Month := allMonths, Dow := allDow }))
    else if spec = "@weekly".toList then
      some (.ok (.spec { base with Dom := allDom, Month := allMonths }))
    else if spec = "@daily".toList ∨ spec = "@midnight".toList then
      some (.ok (.spec { base with Dom := allDom, Month := allMonths, Dow := allDow }))
    else if spec = "@hourly".toList then
      some (.ok (.spec { base with Hour := allHours, Dom := allDom, Month := allMonths, Dow := allDow }))
    else some (.error ("unrecognized descriptor: " ++ spec.asString))

/-- `Parse` from `parser.go`.  The `TZ=` prefix calls the external
`time.LoadLocation`; the embedding is location-free (single fixed zone), so
specs with a timezone prefix are outside the model and rejected here. -/
def Parse (spec : String) : Option (Except String Schedule) :=
  let cs := spec.toList
  if cs.take 3 = "TZ=".toList then
    some (.error "TZ-prefixed specs are outside the location-free model")
  else if cs.take 1 = ['@'] then parseDescriptor cs
  else
    let fields := fieldsWS cs
    if fields.length ≠ 5 ∧ fields.length ≠ 6 then
      some (.error "expected 5 or 6 fields")
    else
      let fields6 := if fields.length = 5 then ['0'] :: fields else fields
      pbind (getf "seconds" (fields6.getD 0 []) seconds) fun fsec =>
      pbind (getf "minutes" (fields6.getD 1 []) minutes) fun fmin =>
      pbind (getf "hours" (fields6.getD 2 []) hours) fun fhour =>
      pbind (getf "dom" (fields6.getD 3 []) dom) fun fdom =>
      pbind (getf "month" (fields6.getD 4 []) months) fun fmonth =>
      pbind (getf "dow" (fields6.getD 5 []) dow) fun fdow =>
      some (.ok (.spec ⟨fsec, fmin, fhour, fdom, fmonth, fdow, ⟨0, 0, false, false⟩⟩))

/-! ## The other schedule implementations -/

/-- Go's zero `time.Time` as a civil value: 0001-01-01T00:00:00. -/
def zeroTime : DateTime := ⟨1, 1, 1, 0, 0, 0, 0⟩

/-- `ExactSchedule` from `exactschedule.go`. -/
structure ExactSchedule where
  Schedule : DateTime
deriving DecidableEq, Repr

/-- `ExactSchedule.Next` from `exactschedule.go`: unconditionally the
configured instant. -/
def ExactSchedule.next (schedule : ExactSchedule) (_t : DateTime) : DateTime :=
  schedule.Schedule

/-- `ExactSchedule.isOneOff` from `exactschedule.go`. -/
def ExactSchedule.isOneOff (_schedule : ExactSchedule) : Bool := true

/-- `FixedSchedule` from `src/unnamed/part_007`. -/
structure FixedSchedule where
  FixedTime : DateTime
deriving DecidableEq, Repr

/-- `FixedSchedule.Next` from `src/unnamed/part_007`: the configured
instant while it is still in the future, afterwards the zero time
(modelled as `none`). -/
def FixedSchedule.next (s : FixedSchedule) (t : DateTime) : Option DateTime :=
  if dtAfter s.FixedTime t then some s.FixedTime else none

/-- `EomSchedule` from `endofmonth.go` (its only field is the location,
which the single-location embedding drops). -/
structure EomSchedule where
deriving DecidableEq, Repr

/-- `monthEndDay` from `endofmonth.go`; a missing map key yields Go's zero
value 0 (unreachable for valid months). -/
def monthEndDay (m : Nat) : Nat :=
  match m with
  | 1 => 31 | 2 => 28 | 3 => 31 | 4 => 30 | 5 => 31 | 6 => 30
  | 7 => 31 | 8 => 31 | 9 => 30 | 10 => 31 | 11 => 30 | 12 => 31
  | _ => 0

/-- `isLeapYear` from `endofmonth.go`. -/
def isLeapYear (year : Nat) : Bool :=
  if year % 400 == 0 then true
  else if year % 100 == 0 then false
  else if year % 4 == 0 then true
  else false

/-- `fetchMonthEndDay` from `endofmonth.go`. -/
def fetchMonthEndDay (m y : Nat) : Nat :=
  if m == 2 && isLeapYear y then 29 else monthEndDay m

/-- `EomSchedule.Next` from `endofmonth.go`. -/
def EomSchedule.next (_schedule : EomSchedule) (t : DateTime) : DateTime :=
  let month := t.month
  let year := t.year
  let currentMonthEndDay := fetchMonthEndDay month year
  if currentMonthEndDay ≤ t.day then
    if month == 12 then
      dateYMDHMS (year + 1) 1 (fetchMonthEndDay month year) 0 0 0
    else
      dateYMDHMS year (month + 1) (fetchMonthEndDay (month + 1) year) 0 0 0
  else dateYMDHMS year month currentMonthEndDay 0 0 0

/-- `RunOnStartupSchedule` from `runonstartup.go`: `Next` mutates the
receiver through the `activated` latch, so it is embedded with explicit
state passing; the wrapped `Schedule` is any `Next` function. -/
structure RunOnStartupSchedule where
  schedule : DateTime → Option DateTime
  activated : Bool

/-- `RunOnStartupSchedule.Next` from `runonstartup.go`: the first call
returns `time.Now()` (passed in as `now` — it is *not* a function of `t`)
and flips the latch; later calls delegate. -/
def RunOnStartupSchedule.next (s : RunOnStartupSchedule) (now t : DateTime) :
    Option DateTime × RunOnStartupSchedule :=
  if !s.activated then (some now, { s with activated := true })
  else (s.schedule t, s)

-- The `ConstantDelaySchedule` revision of `src/unnamed/part_003` (with
-- `startAt`), in its own namespace to keep the Go names of both revisions.
namespace StartAt

/-- `ConstantDelaySchedule` from `src/unnamed/part_003`; `startAt` is a
`time.Time` whose zero value is modelled as `none`. -/
structure ConstantDelaySchedule where
  Delay : Int
  startAt : Option DateTime
deriving DecidableEq, Repr

/-- `Every` from `src/unnamed/part_003`: clamps to at least one second and
truncates the sub-second remainder.  (The Go `%` here acts on a value
already clamped `≥ time.Second`, where truncated and Euclidean remainder
agree.) -/
def Every (duration : Int) : ConstantDelaySchedule :=
  let duration := if duration < 1000000000 then 1000000000 else duration
  ⟨duration - duration % 1000000000, none⟩

/-- `StartingAt` from `src/unnamed/part_003`. -/
def ConstantDelaySchedule.StartingAt (schedule : ConstantDelaySchedule) (start : DateTime) :
    ConstantDelaySchedule :=
  { schedule with startAt := some (addNS (-(start.ns : Int)) start) }

/-- `ConstantDelaySchedule.Next` from `src/unnamed/part_003`.  The Go
`Duration` division truncates toward zero (`Int.div`). -/
def ConstantDelaySchedule.next (schedule : ConstantDelaySchedule) (t : DateTime) : DateTime :=
  let t1 :=
    match schedule.startAt with
    | none => t
    | some startAt =>
      if dtAfter startAt t then startAt
      else addNS (((toNS t - toNS startAt).tdiv schedule.Delay) * schedule.Delay) startAt
  if (schedule.startAt.map (fun s0 => dtAfter s0 t)).getD false then t1
  else addNS (schedule.Delay - (t1.ns : Int)) t1

end StartAt

/-! ## The entry store (`src/unnamed/part_012`) -/

namespace Store

/-- The fields of `Entry` that the store's ordering and snapshot logic
touch: the cron-assigned ID and the next activation instant (`none` is the
zero `time.Time`). Instants are abstract here (`Nat` timestamps). -/
structure Entry where
  ID : Nat
  Next : Option Nat
deriving DecidableEq, Repr

/-- `InMemoryStore.Register`: Go `append`. -/
def Register (entries : List Entry) (e : Entry) : List Entry := entries ++ [e]

/-- `InMemoryStore.Snapshot`: a by-value copy of the slice, in stored
order — the source performs no sorting here. -/
def Snapshot (entries : List Entry) : List Entry := entries

/-- `byTime.Less` from `src/unnamed/part_012`. -/
def byTimeLess (a b : Entry) : Bool :=
  match a.Next, b.Next with
  | none, _ => false
  | some _, none => true
  | some x, some y => decide (x < y)

/-- Insertion step of the model of `sort.Sort(byTime(s.entries))`. -/
def insertByTime (e : Entry) : List Entry → List Entry
  | [] => [e]
  | x :: xs => if byTimeLess e x then e :: x :: xs else x :: insertByTime e xs

/-- Model of `sort.Sort(byTime(s.entries))` as performed inside
`InMemoryStore.Next`: some permutation ordered by `byTime.Less` (Go's
quicksort is unstable; only the resulting order matters and is relied
upon). -/
def sortByTime : List Entry → List Entry
  | [] => []
  | e :: es => insertByTime e (sortByTime es)

/-- "Sorted ascending by `Next`, zero `Next` last": no adjacent pair is
inverted under `byTime.Less`. -/
def isSortedByTime : List Entry → Bool
  | [] => true
  | [_] => true
  | a :: b :: rest => !byTimeLess b a && isSortedByTime (b :: rest)

/-- `InMemoryStore.Next` from `src/unnamed/part_012`: sorts the underlying
slice in place, then reports the soonest entry; the mutated slice is
returned alongside. -/
def NextDue (entries : List Entry) : (Nat × Option Nat) × List Entry :=
  match sortByTime entries with
  | [] => ((0, none), [])
  | e :: es => ((e.ID, e.Next), e :: es)

end Store

/-! ## `SkipIfStillRunning` (`chain.go`)

The wrapper guards the job with a one-slot channel (`ch = make(chan
struct{}, 1)` holding one token).  The interleaving of activations is
modelled as a transition system: `start` is an activation arriving at the
`select` (taking the token if available, otherwise logging "skip"), and
`finish` is a running activation completing (the deferred `ch <- v`). -/

/-- Propositional equality of parse results is decidable (needed to evaluate
`Parse` on concrete inputs). -/
instance {e a : Type} [DecidableEq e] [DecidableEq a] : DecidableEq (Except e a) := fun x y =>
  match x, y with
  | .ok x, .ok y =>
    if h : x = y then .isTrue (by rw [h]) else .isFalse (by intro hc; injection hc; contradiction)
  | .error x, .error y =>
    if h : x = y then .isTrue (by rw [h]) else .isFalse (by intro hc; injection hc; contradiction)
  | .ok _, .error _ => .isFalse (by intro hc; exact Except.noConfusion hc)
  | .error _, .ok _ => .isFalse (by intro hc; exact Except.noConfusion hc)

namespace Skip

/-- State of one wrapped job: whether the channel holds the token, how many
wrapped activations are currently executing `j.Run()`, and how many were
dropped with a "skip" log line. -/
structure SkipState where
  free : Bool
  running : Nat
  skipped : Nat
deriving DecidableEq, Repr

/-- The wrapper's initial state: `ch <- struct{}{}` has stocked the slot. -/
def init : SkipState := ⟨true, 0, 0⟩

/-- Events of a wrapped job: an activation reaching the `select`, or a
running activation returning. -/
inductive Ev where
  | start
  | finish
deriving DecidableEq, Repr

/-- The transition function read off `SkipIfStillRunning`
(`chain.go`): a `start` with the token available takes it and runs the
job; without it, the activation is dropped and logged; a `finish` returns
the token. -/
def step (st : SkipState) : Ev → SkipState
  | .start =>
    if st.free then ⟨false, st.running + 1, st.skipped⟩
    else ⟨st.free, st.running, st.skipped + 1⟩
  | .finish => ⟨true, st.running - 1, st.skipped⟩

/-- States reachable by interleaving activations and completions;
`finish` can only be emitted by an activation that is actually running. -/
inductive Reachable : SkipState → Prop
  | init : Reachable init
  | start {st} : Reachable st → Reachable (step st .start)
  | finish {st} : Reachable st → 0 < st.running → Reachable (step st .finish)

end Skip


theorem daysInMonth_pos (y m : Nat) : 0 < daysInMonth y m := by
  unfold daysInMonth; split <;> first | omega | (split <;> omega)

theorem daysInMonth_le31 (y m : Nat) : daysInMonth y m ≤ 31 := by
  unfold daysInMonth; split <;> first | omega | (split <;> omega)

theorem daysInMonth_ge28 (y m : Nat) : 28 ≤ daysInMonth y m := by
  unfold daysInMonth; split <;> first | omega | (split <;> omega)

theorem normDGo_self {y m d : Nat} (fuel : Nat) (h : d ≤ daysInMonth y m) :
    normDGo fuel y m d = (y, m, d) := by
  cases fuel <;> simp [normDGo, Nat.not_lt.mpr h]

theorem normDGo_irrel : ∀ f1 f2 y m d : Nat, d ≤ f1 → d ≤ f2 →
    normDGo f1 y m d = normDGo f2 y m d := by
  intro f1
  induction f1 with
  | zero =>
    intro f2 y m d h1 h2
    have hd : d = 0 := by omega
    subst hd
    rw [normDGo_self f2 (by omega)]
    rfl
  | succ f ih =>
    intro f2 y m d h1 h2
    by_cases hlt : daysInMonth y m < d
    · have hpos := daysInMonth_pos y m
      cases f2 with
      | zero => omega
      | succ f2 =>
        simp only [normDGo, if_pos hlt]
        split
        · exact ih f2 (y + 1) 1 (d - daysInMonth y m) (by omega) (by omega)
        · exact ih f2 y (m + 1) (d - daysInMonth y m) (by omega) (by omega)
    · rw [normDGo_self _ (Nat.not_lt.1 hlt), normDGo_self _ (Nat.not_lt.1 hlt)]

theorem normD_eq_body (y m d : Nat) :
    normD y m d =
      if daysInMonth y m < d then
        if m ≥ 12 then normD (y + 1) 1 (d - daysInMonth y m)
        else normD y (m + 1) (d - daysInMonth y m)
      else (y, m, d) := by
  by_cases hlt : daysInMonth y m < d
  · have hpos := daysInMonth_pos y m
    cases d with
    | zero => omega
    | succ d =>
      show normDGo (d + 1) y m (d + 1) = _
      simp only [normDGo, if_pos hlt]
      split
      · rw [show normD (y + 1) 1 (d + 1 - daysInMonth y m) =
          normDGo (d + 1 - daysInMonth y m) (y + 1) 1 (d + 1 - daysInMonth y m) from rfl]
        exact normDGo_irrel d _ (y + 1) 1 _ (by omega) (by omega)
      · rw [show normD y (m + 1) (d + 1 - daysInMonth y m) =
          normDGo (d + 1 - daysInMonth y m) y (m + 1) (d + 1 - daysInMonth y m) from rfl]
        exact normDGo_irrel d _ y (m + 1) _ (by omega) (by omega)
  · rw [if_neg hlt]
    exact normDGo_self d (Nat.not_lt.1 hlt)

theorem normD_self {y m d : Nat} (h : d ≤ daysInMonth y m) : normD y m d = (y, m, d) :=
  normDGo_self d h

theorem isLeap_iff (y : Nat) :
    isLeap y = true ↔ ((y % 4 = 0 ∧ y % 100 ≠ 0) ∨ y % 400 = 0) := by
  simp [isLeap, Bool.or_eq_true, Bool.and_eq_true, beq_iff_eq, bne_iff_ne]

theorem leapsBefore_succ (y : Nat) :
    leapsBefore (y + 1) = leapsBefore y + (if isLeap (y + 1) then 1 else 0) := by
  have h := isLeap_iff (y + 1)
  unfold leapsBefore
  split
  · rename_i hl
    rw [h] at hl
    omega
  · rename_i hl
    rw [h] at hl
    omega

theorem daysBeforeMonth_succ {m : Nat} (y : Nat) (h1 : 1 ≤ m) (h2 : m ≤ 11) :
    daysBeforeMonth y (m + 1) = daysBeforeMonth y m + daysInMonth y m := by
  interval_cases m <;> simp [daysBeforeMonth, daysInMonth] <;> split <;> omega

theorem normD_props {d : Nat} : ∀ y m : Nat, 1 ≤ m → m ≤ 12 → 1 ≤ d →
    y ≤ (normD y m d).1 ∧ 1 ≤ (normD y m d).2.1 ∧ (normD y m d).2.1 ≤ 12 ∧
      1 ≤ (normD y m d).2.2 ∧ (normD y m d).2.2 ≤ daysInMonth (normD y m d).1 (normD y m d).2.1 := by
  induction d using Nat.strong_induction_on with
  | _ d ih =>
    intro y m hm1 hm2 hd
    rw [normD_eq_body]
    split
    · rename_i hlt
      have hpos := daysInMonth_pos y m
      have hle := daysInMonth_le31 y m
      split
      · have := ih (d - daysInMonth y m) (by omega) (y + 1) 1 (by omega) (by omega) (by omega)
        exact ⟨by omega, this.2⟩
      · rename_i hm12
        exact ih (d - daysInMonth y m) (by omega) y (m + 1) (by omega) (by omega) (by omega)
    · rename_i hge
      simp only
      omega

theorem normD_days {d : Nat} : ∀ y m : Nat, 1 ≤ y → 1 ≤ m → m ≤ 12 → 1 ≤ d →
    daysSinceYear1 (normD y m d).1 (normD y m d).2.1 (normD y m d).2.2 =
      365 * (y - 1) + leapsBefore (y - 1) + daysBeforeMonth y m + (d - 1) := by
  induction d using Nat.strong_induction_on with
  | _ d ih =>
    intro y m hy hm1 hm2 hd
    rw [normD_eq_body]
    split
    · rename_i hlt
      have hpos := daysInMonth_pos y m
      have hle := daysInMonth_le31 y m
      split
      · rename_i hge12
        have hm12 : m = 12 := by omega
        subst hm12
        have hrec := ih (d - daysInMonth y 12) (by omega) (y + 1) 1 (by omega) (by omega)
          (by omega) (by omega)
        have hstep : leapsBefore y = leapsBefore (y - 1) + (if isLeap y then 1 else 0) := by
          have h0 := leapsBefore_succ (y - 1)
          have hy1 : y - 1 + 1 = y := by omega
          rw [hy1] at h0
          exact h0
        have hdim : daysInMonth y 12 = 31 := rfl
        have hdbm1 : daysBeforeMonth (y + 1) 1 = 0 := by simp [daysBeforeMonth]
        have hdbm12 : daysBeforeMonth y 12 = 334 + (if isLeap y then 1 else 0) := by
          simp [daysBeforeMonth]
        have hy1 : y + 1 - 1 = y := by omega
        rw [hdim] at hrec ⊢
        rw [hy1, hdbm1] at hrec
        rw [hrec, hdbm12, hstep]
        by_cases hl : isLeap y <;> simp [hl] <;> omega
      · rename_i hge12
        have hrec := ih (d - daysInMonth y m) (by omega) y (m + 1) (by omega) (by omega)
          (by omega) (by omega)
        rw [hrec, daysBeforeMonth_succ y hm1 (by omega)]
        omega
    · rename_i hge
      simp only [daysSinceYear1]

theorem addDaysI_days {k : Int} (hk : 0 ≤ k) (y m d : Nat) (hy : 1 ≤ y) (hm1 : 1 ≤ m)
    (hm2 : m ≤ 12) (hd : 1 ≤ d) :
    daysSinceYear1 (addDaysI k y m d).1 (addDaysI k y m d).2.1 (addDaysI k y m d).2.2 =
      daysSinceYear1 y m d + k.toNat := by
  unfold addDaysI
  rw [if_pos hk]
  have h5 : 1 ≤ d + k.toNat := by omega
  have h6 := normD_days y m hy hm1 hm2 h5
  rw [h6]
  simp only [daysSinceYear1]
  omega

theorem addDaysI_props {k : Int} (hk : 0 ≤ k) (y m d : Nat) (hm1 : 1 ≤ m)
    (hm2 : m ≤ 12) (hd : 1 ≤ d) :
    y ≤ (addDaysI k y m d).1 ∧ 1 ≤ (addDaysI k y m d).2.1 ∧ (addDaysI k y m d).2.1 ≤ 12 ∧
      1 ≤ (addDaysI k y m d).2.2 ∧
      (addDaysI k y m d).2.2 ≤ daysInMonth (addDaysI k y m d).1 (addDaysI k y m d).2.1 := by
  unfold addDaysI
  rw [if_pos hk]
  exact normD_props y m hm1 hm2 (by omega)

theorem toNS_addNS {delta : Int} (hdelta : 0 ≤ delta) (t : DateTime) (hy : 1 ≤ t.year)
    (hm1 : 1 ≤ t.month) (hm2 : t.month ≤ 12) (hd : 1 ≤ t.day) :
    toNS (addNS delta t) = toNS t + delta := by
  obtain ⟨y, m, d, hh, mi, s, ns⟩ := t
  simp only at hy hm1 hm2 hd
  simp only [addNS, toNS]
  have h1 : (0 : Int) ≤ (ns : Int) + delta := by omega
  have h2 : (0 : Int) ≤ ((ns : Int) + delta) / 1000000000 :=
    Int.ediv_nonneg h1 (by norm_num)
  have h3 : (0 : Int) ≤ (s : Int) + ((ns : Int) + delta) / 1000000000 := by omega
  have h4 : (0 : Int) ≤ ((s : Int) + ((ns : Int) + delta) / 1000000000) / 60 :=
    Int.ediv_nonneg h3 (by norm_num)
  have h5 : (0 : Int) ≤ (mi : Int) + ((s : Int) + ((ns : Int) + delta) / 1000000000) / 60 := by
    omega
  have h6 : (0 : Int) ≤ ((mi : Int) + ((s : Int) + ((ns : Int) + delta) / 1000000000) / 60) / 60 :=
    Int.ediv_nonneg h5 (by norm_num)
  have h7 : (0 : Int) ≤ (hh : Int) + ((mi : Int) + ((s : Int) + ((ns : Int) + delta) / 1000000000) / 60) / 60 := by
    omega
  have h8 : (0 : Int) ≤ ((hh : Int) + ((mi : Int) + ((s : Int) + ((ns : Int) + delta) / 1000000000) / 60) / 60) / 24 :=
    Int.ediv_nonneg h7 (by norm_num)
  rw [addDaysI_days h8 y m d hy hm1 hm2 hd]
  have m1 : (0 : Int) ≤ ((ns : Int) + delta) % 1000000000 :=
    Int.emod_nonneg _ (by norm_num)
  have m2 : (0 : Int) ≤ ((s : Int) + ((ns : Int) + delta) / 1000000000) % 60 :=
    Int.emod_nonneg _ (by norm_num)
  have m3 : (0 : Int) ≤ ((mi : Int) + ((s : Int) + ((ns : Int) + delta) / 1000000000) / 60) % 60 :=
    Int.emod_nonneg _ (by norm_num)
  have m4 : (0 : Int) ≤ ((hh : Int) + ((mi : Int) + ((s : Int) + ((ns : Int) + delta) / 1000000000) / 60) / 60) % 24 :=
    Int.emod_nonneg _ (by norm_num)
  push_cast [Int.toNat_of_nonneg m1, Int.toNat_of_nonneg m2, Int.toNat_of_nonneg m3,
    Int.toNat_of_nonneg m4, Int.toNat_of_nonneg h8]
  omega

theorem normD_roll {y m d : Nat} (hd : d = daysInMonth y m) (hm1 : 1 ≤ m) (hm2 : m ≤ 12) :
    normD y m (d + 1) = if m = 12 then (y + 1, 1, 1) else (y, m + 1, 1) := by
  subst hd
  rw [normD_eq_body, if_pos (by omega)]
  by_cases h12 : m = 12
  · subst h12
    rw [if_pos (show (12 : Nat) ≥ 12 by omega), if_pos rfl]
    have h31 : daysInMonth y 12 = 31 := rfl
    rw [h31, show (31 + 1 - 31 : Nat) = 1 from rfl,
      normD_self (by have := daysInMonth_pos (y + 1) 1; omega)]
  · have hge : ¬(12 ≤ m) := by omega
    simp only [ge_iff_le, hge, if_false, h12]
    have h1 : daysInMonth y m + 1 - daysInMonth y m = 1 := by omega
    rw [h1, normD_self (by have := daysInMonth_pos y (m + 1); omega)]

theorem addDaysI_zero {E : Int} {y m d : Nat} (hd1 : 1 ≤ d) (hd2 : d ≤ daysInMonth y m)
    (hE : E = 0) : addDaysI E y m d = (y, m, d) := by
  subst hE
  unfold addDaysI
  norm_num
  exact normD_self hd2

theorem addDaysI_one_in {E : Int} {y m d : Nat} (hd : d < daysInMonth y m)
    (hE : E = 1) : addDaysI E y m d = (y, m, d + 1) := by
  subst hE
  unfold addDaysI
  norm_num
  exact normD_self (by omega)

theorem addDaysI_one_rollm {E : Int} {y m d : Nat} (hd : d = daysInMonth y m)
    (hm1 : 1 ≤ m) (hm2 : m ≤ 11) (hE : E = 1) : addDaysI E y m d = (y, m + 1, 1) := by
  subst hE
  unfold addDaysI
  norm_num
  rw [normD_roll hd hm1 (by omega)]
  simp only [ite_eq_right_iff]
  omega

theorem addDaysI_one_rolly {E : Int} {y m d : Nat} (hd : d = daysInMonth y m)
    (hm : m = 12) (hE : E = 1) : addDaysI E y m d = (y + 1, 1, 1) := by
  subst hE
  unfold addDaysI
  norm_num
  rw [normD_roll hd (by omega) (by omega)]
  simp [hm]

theorem addNS_sec {t : DateTime} (hv : Valid t) (hns : t.ns = 0) :
    addNS 1000000000 t =
      if t.second < 59 then { t with second := t.second + 1 }
      else if t.minute < 59 then { t with minute := t.minute + 1, second := 0 }
      else if t.hour < 23 then { t with hour := t.hour + 1, minute := 0, second := 0 }
      else if t.day < daysInMonth t.year t.month then
        { t with day := t.day + 1, hour := 0, minute := 0, second := 0 }
      else if t.month < 12 then ⟨t.year, t.month + 1, 1, 0, 0, 0, 0⟩
      else ⟨t.year + 1, 1, 1, 0, 0, 0, 0⟩ := by
  obtain ⟨y, m, d, hh, mi, s, ns⟩ := t
  obtain ⟨h1, h2, h3, h4, h5, h6, h7, h8, h9⟩ := hv
  simp only at h1 h2 h3 h4 h5 h6 h7 h8 h9 hns
  subst hns
  simp only [addNS]
  split_ifs with c1 c2 c3 c4 c5 <;>
    simp only [DateTime.mk.injEq] <;>
    refine ⟨?_, ?_, ?_, ?_, ?_, ?_, ?_⟩
  · rw [addDaysI_zero h4 h5 (by omega)]
  · rw [addDaysI_zero h4 h5 (by omega)]
  · rw [addDaysI_zero h4 h5 (by omega)]
  · omega
  · omega
  · omega
  · omega
  · rw [addDaysI_zero h4 h5 (by omega)]
  · rw [addDaysI_zero h4 h5 (by omega)]
  · rw [addDaysI_zero h4 h5 (by omega)]
  · omega
  · omega
  · omega
  · omega
  · rw [addDaysI_zero h4 h5 (by omega)]
  · rw [addDaysI_zero h4 h5 (by omega)]
  · rw [addDaysI_zero h4 h5 (by omega)]
  · omega
  · omega
  · omega
  · omega
  · rw [addDaysI_one_in c4 (by omega)]
  · rw [addDaysI_one_in c4 (by omega)]
  · rw [addDaysI_one_in c4 (by omega)]
  · omega
  · omega
  · omega
  · omega
  · rw [addDaysI_one_rollm (by omega) h2 (by omega) (by omega)]
  · rw [addDaysI_one_rollm (by omega) h2 (by omega) (by omega)]
  · rw [addDaysI_one_rollm (by omega) h2 (by omega) (by omega)]
  · omega
  · omega
  · omega
  · omega
  · rw [addDaysI_one_rolly (by omega) (by omega) (by omega)]
  · rw [addDaysI_one_rolly (by omega) (by omega) (by omega)]
  · rw [addDaysI_one_rolly (by omega) (by omega) (by omega)]
  · omega
  · omega
  · omega
  · omega

theorem addNS_min {t : DateTime} (hv : Valid t) (hns : t.ns = 0) :
    addNS 60000000000 t =
      if t.minute < 59 then { t with minute := t.minute + 1 }
      else if t.hour < 23 then { t with hour := t.hour + 1, minute := 0 }
      else if t.day < daysInMonth t.year t.month then
        { t with day := t.day + 1, hour := 0, minute := 0 }
      else if t.month < 12 then ⟨t.year, t.month + 1, 1, 0, 0, t.second, 0⟩
      else ⟨t.year + 1, 1, 1, 0, 0, t.second, 0⟩ := by
  obtain ⟨y, m, d, hh, mi, s, ns⟩ := t
  obtain ⟨h1, h2, h3, h4, h5, h6, h7, h8, h9⟩ := hv
  simp only at h1 h2 h3 h4 h5 h6 h7 h8 h9 hns
  subst hns
  simp only [addNS]
  split_ifs with c1 c2 c3 c4 <;>
    simp only [DateTime.mk.injEq] <;>
    refine ⟨?_, ?_, ?_, ?_, ?_, ?_, ?_⟩
  · rw [addDaysI_zero h4 h5 (by omega)]
  · rw [addDaysI_zero h4 h5 (by omega)]
  · rw [addDaysI_zero h4 h5 (by omega)]
  · omega
  · omega
  · omega
  · omega
  · rw [addDaysI_zero h4 h5 (by omega)]
  · rw [addDaysI_zero h4 h5 (by omega)]
  · rw [addDaysI_zero h4 h5 (by omega)]
  · omega
  · omega
  · omega
  · omega
  · rw [addDaysI_one_in c3 (by omega)]
  · rw [addDaysI_one_in c3 (by omega)]
  · rw [addDaysI_one_in c3 (by omega)]
  · omega
  · omega
  · omega
  · omega
  · rw [addDaysI_one_rollm (by omega) h2 (by omega) (by omega)]
  · rw [addDaysI_one_rollm (by omega) h2 (by omega) (by omega)]
  · rw [addDaysI_one_rollm (by omega) h2 (by omega) (by omega)]
  · omega
  · omega
  · omega
  · omega
  · rw [addDaysI_one_rolly (by omega) (by omega) (by omega)]
  · rw [addDaysI_one_rolly (by omega) (by omega) (by omega)]
  · rw [addDaysI_one_rolly (by omega) (by omega) (by omega)]
  · omega
  · omega
  · omega
  · omega

theorem addNS_hour {t : DateTime} (hv : Valid t) (hns : t.ns = 0) :
    addNS 3600000000000 t =
      if t.hour < 23 then { t with hour := t.hour + 1 }
      else if t.day < daysInMonth t.year t.month then
        { t with day := t.day + 1, hour := 0 }
      else if t.month < 12 then ⟨t.year, t.month + 1, 1, 0, t.minute, t.second, 0⟩
      else ⟨t.year + 1, 1, 1, 0, t.minute, t.second, 0⟩ := by
  obtain ⟨y, m, d, hh, mi, s, ns⟩ := t
  obtain ⟨h1, h2, h3, h4, h5, h6, h7, h8, h9⟩ := hv
  simp only at h1 h2 h3 h4 h5 h6 h7 h8 h9 hns
  subst hns
  simp only [addNS]
  split_ifs with c1 c2 c3 <;>
    simp only [DateTime.mk.injEq] <;>
    refine ⟨?_, ?_, ?_, ?_, ?_, ?_, ?_⟩
  · rw [addDaysI_zero h4 h5 (by omega)]
  · rw [addDaysI_zero h4 h5 (by omega)]
  · rw [addDaysI_zero h4 h5 (by omega)]
  · omega
  · omega
  · omega
  · omega
  · rw [addDaysI_one_in c2 (by omega)]
  · rw [addDaysI_one_in c2 (by omega)]
  · rw [addDaysI_one_in c2 (by omega)]
  · omega
  · omega
  · omega
  · omega
  · rw [addDaysI_one_rollm (by omega) h2 (by omega) (by omega)]
  · rw [addDaysI_one_rollm (by omega) h2 (by omega) (by omega)]
  · rw [addDaysI_one_rollm (by omega) h2 (by omega) (by omega)]
  · omega
  · omega
  · omega
  · omega
  · rw [addDaysI_one_rolly (by omega) (by omega) (by omega)]
  · rw [addDaysI_one_rolly (by omega) (by omega) (by omega)]
  · rw [addDaysI_one_rolly (by omega) (by omega) (by omega)]
  · omega
  · omega
  · omega
  · omega

theorem dateYMDHMS_eq {y m d : Nat} (hd : d ≤ daysInMonth y m) (h mi s : Nat) :
    dateYMDHMS y m d h mi s = ⟨y, m, d, h, mi, s, 0⟩ := by
  unfold dateYMDHMS
  rw [normD_self hd]

theorem addDayGo_eq {t : DateTime} (hv : Valid t) :
    addDayGo t =
      if t.day < daysInMonth t.year t.month then { t with day := t.day + 1 }
      else if t.month < 12 then { t with month := t.month + 1, day := 1 }
      else { t with year := t.year + 1, month := 1, day := 1 } := by
  obtain ⟨y, m, d, hh, mi, s, ns⟩ := t
  obtain ⟨h1, h2, h3, h4, h5, h6, h7, h8, h9⟩ := hv
  simp only at h1 h2 h3 h4 h5 h6 h7 h8 h9
  unfold addDayGo
  dsimp only
  split_ifs with c1 c2
  · rw [normD_self (by omega)]
  · have c1' : d = daysInMonth y m := by omega
    rw [normD_roll c1' h2 h3, if_neg (by omega)]
  · have c1' : d = daysInMonth y m := by omega
    rw [normD_roll c1' h2 h3, if_pos (by omega)]

theorem addMonthGo_eq {t : DateTime} (hd : t.day = 1) (hm2 : t.month ≤ 12) :
    addMonthGo t =
      if t.month < 12 then { t with month := t.month + 1 }
      else { t with year := t.year + 1, month := 1 } := by
  obtain ⟨y, m, d, hh, mi, s, ns⟩ := t
  simp only at hd hm2
  subst hd
  unfold addMonthGo
  dsimp only
  by_cases h12 : m = 12
  · subst h12
    simp only [beq_self_eq_true, if_true, if_pos]
    rw [normD_self (by have := daysInMonth_pos (y + 1) 1; omega)]
    norm_num
  · have hb : (m == 12) = false := by simp [h12]
    simp only [hb, if_false, Bool.false_eq_true]
    rw [normD_self (by have := daysInMonth_pos y (m + 1); omega)]
    by_cases hlt : m < 12
    · simp [hlt]
    · omega

theorem toNS_addDayGo {t : DateTime} (hy : 1 ≤ t.year) (hm1 : 1 ≤ t.month)
    (hm2 : t.month ≤ 12) (hd : 1 ≤ t.day) :
    toNS (addDayGo t) = toNS t + 86400000000000 := by
  obtain ⟨y, m, d, hh, mi, s, ns⟩ := t
  simp only at hy hm1 hm2 hd
  unfold addDayGo toNS
  dsimp only
  rw [normD_days y m hy hm1 hm2 (show 1 ≤ d + 1 by omega)]
  simp only [daysSinceYear1]
  push_cast
  omega

theorem toNS_addMonthGo_gt {t : DateTime} (hy : 1 ≤ t.year) (hm1 : 1 ≤ t.month)
    (hm2 : t.month ≤ 12) (hd : t.day = 1) :
    toNS t < toNS (addMonthGo t) := by
  obtain ⟨y, m, d, hh, mi, s, ns⟩ := t
  simp only at hy hm1 hm2 hd
  subst hd
  unfold addMonthGo toNS
  dsimp only
  by_cases h12 : m = 12
  · subst h12
    simp only [beq_self_eq_true, if_true, if_pos]
    rw [normD_self (by have := daysInMonth_pos (y + 1) 1; omega)]
    have hstep : leapsBefore y = leapsBefore (y - 1) + (if isLeap y then 1 else 0) := by
      have h0 := leapsBefore_succ (y - 1)
      have hy1 : y - 1 + 1 = y := by omega
      rw [hy1] at h0
      exact h0
    simp only [daysSinceYear1, daysBeforeMonth]
    by_cases hl : isLeap y <;> simp [hl, hstep] <;> push_cast <;> omega
  · have hb : (m == 12) = false := by simp [h12]
    simp only [hb, if_false, Bool.false_eq_true]
    rw [normD_self (by have := daysInMonth_pos y (m + 1); omega)]
    have hdbm := daysBeforeMonth_succ y hm1 (by omega)
    have hpos := daysInMonth_pos y m
    simp only [daysSinceYear1]
    rw [hdbm]
    push_cast
    omega

theorem tick_sec {t : DateTime} (hv : Valid t) (hns : t.ns = 0) :
    Valid (addNS 1000000000 t) ∧ (addNS 1000000000 t).ns = 0 ∧
      toNS (addNS 1000000000 t) = toNS t + 1000000000 := by
  obtain ⟨h1, h2, h3, h4, h5, h6, h7, h8, h9⟩ := hv
  refine ⟨?_, ?_, toNS_addNS (by norm_num) t h1 h2 h3 h4⟩ <;>
    rw [addNS_sec ⟨h1, h2, h3, h4, h5, h6, h7, h8, h9⟩ hns] <;>
    have p1 := daysInMonth_pos t.year (t.month + 1) <;>
    have p2 := daysInMonth_pos (t.year + 1) 1 <;>
    split_ifs <;>
    unfold Valid at * <;>
    dsimp only <;>
    omega

theorem tick_min {t : DateTime} (hv : Valid t) (hns : t.ns = 0) :
    Valid (addNS 60000000000 t) ∧ (addNS 60000000000 t).ns = 0 ∧
      toNS (addNS 60000000000 t) = toNS t + 60000000000 := by
  obtain ⟨h1, h2, h3, h4, h5, h6, h7, h8, h9⟩ := hv
  refine ⟨?_, ?_, toNS_addNS (by norm_num) t h1 h2 h3 h4⟩ <;>
    rw [addNS_min ⟨h1, h2, h3, h4, h5, h6, h7, h8, h9⟩ hns] <;>
    have p1 := daysInMonth_pos t.year (t.month + 1) <;>
    have p2 := daysInMonth_pos (t.year + 1) 1 <;>
    split_ifs <;>
    unfold Valid at * <;>
    dsimp only <;>
    omega

theorem tick_hour {t : DateTime} (hv : Valid t) (hns : t.ns = 0) :
    Valid (addNS 3600000000000 t) ∧ (addNS 3600000000000 t).ns = 0 ∧
      toNS (addNS 3600000000000 t) = toNS t + 3600000000000 := by
  obtain ⟨h1, h2, h3, h4, h5, h6, h7, h8, h9⟩ := hv
  refine ⟨?_, ?_, toNS_addNS (by norm_num) t h1 h2 h3 h4⟩ <;>
    rw [addNS_hour ⟨h1, h2, h3, h4, h5, h6, h7, h8, h9⟩ hns] <;>
    have p1 := daysInMonth_pos t.year (t.month + 1) <;>
    have p2 := daysInMonth_pos (t.year + 1) 1 <;>
    split_ifs <;>
    unfold Valid at * <;>
    dsimp only <;>
    omega

theorem dayMatches_congr {s : SpecSchedule} {t u : DateTime} (hy : t.year = u.year)
    (hm : t.month = u.month) (hd : t.day = u.day) : dayMatches s t = dayMatches s u := by
  obtain ⟨y1, m1, d1, hh1, mi1, s1, n1⟩ := t
  obtain ⟨y2, m2, d2, hh2, mi2, s2, n2⟩ := u
  simp only at hy hm hd
  subst hy; subst hm; subst hd
  rfl

def WInv (s : SpecSchedule) (t : DateTime) (added : Bool) : Prop :=
  added = true → (goBit s.Month t.month = true ∧ dayMatches s t = true) ∨
    (t.hour = 0 ∧ (goBit s.Month t.month = true ∨ t.day = 1))

theorem reset_ns_eq {t : DateTime} (hns : t.ns = 0) : ({ t with ns := 0 } : DateTime) = t := by
  obtain ⟨y, m, d, hh, mi, s, n⟩ := t
  simp only at hns
  subst hns
  rfl

theorem secondLoop_done {s : SpecSchedule} {fuel : Nat} :
    ∀ {t : DateTime} {added : Bool} {t' : DateTime} {a' : Bool},
      Valid t → t.ns = 0 → secondLoop s fuel t added = .done t' a' →
      Valid t' ∧ t'.ns = 0 ∧ goBit s.Second t'.second = true ∧
        t'.minute = t.minute ∧ t'.hour = t.hour ∧ t'.day = t.day ∧
        t'.month = t.month ∧ t'.year = t.year ∧ toNS t ≤ toNS t' := by
  induction fuel with
  | zero =>
    intro t added t' a' hv hns h
    simp [secondLoop] at h
  | succ n ih =>
    intro t added t' a' hv hns h
    rw [secondLoop] at h
    by_cases hb : goBit s.Second t.second
    · rw [if_pos (by simp [hb])] at h
      cases h
      exact ⟨hv, hns, hb, rfl, rfl, rfl, rfl, rfl, le_refl _⟩
    · rw [if_neg (by simp [hb])] at h
      dsimp only at h
      rw [reset_ns_eq hns] at h
      have hpair : (if !added then (t, true) else (t, added)) = (t, if !added then true else added) := by
        by_cases ha : added <;> simp [ha]
      rw [hpair] at h
      dsimp only at h
      rcases Nat.lt_or_ge t.second 59 with hc | hc
      · have hfields := addNS_sec hv hns
        rw [if_pos hc] at hfields
        have htick := tick_sec hv hns
        rw [if_neg (by simp [hfields])] at h
        have ihres := ih htick.1 htick.2.1 h
        rw [hfields] at ihres
        dsimp only at ihres
        refine ⟨ihres.1, ihres.2.1, ihres.2.2.1, ihres.2.2.2.1, ihres.2.2.2.2.1,
          ihres.2.2.2.2.2.1, ihres.2.2.2.2.2.2.1, ihres.2.2.2.2.2.2.2.1, ?_⟩
        have h9 := ihres.2.2.2.2.2.2.2.2
        rw [hfields] at htick
        omega
      · have hs0 : (addNS 1000000000 t).second = 0 := by
          rw [addNS_sec hv hns]
          have hv2 := hv
          obtain ⟨h1, h2, h3, h4, h5, h6, h7, h8, h9⟩ := hv2
          split_ifs <;> dsimp only <;> omega
        rw [if_pos (by simp [hs0])] at h
        cases h

theorem secondLoop_wrap {s : SpecSchedule} {fuel : Nat} :
    ∀ {t : DateTime} {added : Bool} {t' : DateTime} {a' : Bool},
      Valid t → t.ns = 0 → 61 ≤ t.second + fuel →
      secondLoop s fuel t added = .wrap t' a' →
      Valid t' ∧ t'.ns = 0 ∧ t'.second = 0 ∧ toNS t < toNS t' ∧
        ((t'.year = t.year ∧ t'.month = t.month ∧ t'.day = t.day) ∨
          (t'.hour = 0 ∧ ((t'.year = t.year ∧ t'.month = t.month) ∨ t'.day = 1))) := by
  induction fuel with
  | zero =>
    intro t added t' a' hv hns hf h
    exact absurd hv (by unfold Valid; omega)
  | succ n ih =>
    intro t added t' a' hv hns hf h
    rw [secondLoop] at h
    by_cases hb : goBit s.Second t.second
    · rw [if_pos (by simp [hb])] at h
      cases h
    · rw [if_neg (by simp [hb])] at h
      dsimp only at h
      rw [reset_ns_eq hns] at h
      have hpair : (if !added then (t, true) else (t, added)) = (t, if !added then true else added) := by
        by_cases ha : added <;> simp [ha]
      rw [hpair] at h
      dsimp only at h
      have htick := tick_sec hv hns
      rcases Nat.lt_or_ge t.second 59 with hc | hc
      · have hfields := addNS_sec hv hns
        rw [if_pos hc] at hfields
        rw [if_neg (by simp [hfields])] at h
        have ihres := ih htick.1 htick.2.1 (by rw [hfields]; dsimp only; omega) h
        rw [hfields] at ihres htick
        dsimp only at ihres
        refine ⟨ihres.1, ihres.2.1, ihres.2.2.1, by have := ihres.2.2.2.1; omega,
          ihres.2.2.2.2⟩
      · have hs0 : (addNS 1000000000 t).second = 0 := by
          rw [addNS_sec hv hns]
          have hv2 := hv
          obtain ⟨h1, h2, h3, h4, h5, h6, h7, h8, h9⟩ := hv2
          split_ifs <;> dsimp only <;> omega
        rw [if_pos (by simp [hs0])] at h
        cases h
        refine ⟨htick.1, htick.2.1, hs0, by omega, ?_⟩
        have hfields := addNS_sec hv hns
        rw [if_neg (by omega)] at hfields
        have hv2 := hv
        obtain ⟨h1, h2, h3, h4, h5, h6, h7, h8, h9⟩ := hv2
        split_ifs at hfields <;> rw [hfields] <;> dsimp only
        · exact Or.inl ⟨rfl, rfl, rfl⟩
        · exact Or.inl ⟨rfl, rfl, rfl⟩
        · exact Or.inr ⟨rfl, Or.inl ⟨rfl, rfl⟩⟩
        · exact Or.inr ⟨rfl, Or.inr rfl⟩
        · exact Or.inr ⟨rfl, Or.inr rfl⟩

theorem minuteLoop_done {s : SpecSchedule} {fuel : Nat} :
    ∀ {t : DateTime} {added : Bool} {t' : DateTime} {a' : Bool},
      Valid t → t.ns = 0 → minuteLoop s fuel t added = .done t' a' →
      Valid t' ∧ t'.ns = 0 ∧ goBit s.Minute t'.minute = true ∧
        t'.hour = t.hour ∧ t'.day = t.day ∧ t'.month = t.month ∧ t'.year = t.year ∧
        toNS t ≤ toNS t' := by
  induction fuel with
  | zero =>
    intro t added t' a' hv hns h
    simp [minuteLoop] at h
  | succ n ih =>
    intro t added t' a' hv hns h
    rw [minuteLoop] at h
    by_cases hb : goBit s.Minute t.minute
    · rw [if_pos (by simp [hb])] at h
      cases h
      exact ⟨hv, hns, hb, rfl, rfl, rfl, rfl, le_refl _⟩
    · rw [if_neg (by simp [hb])] at h
      dsimp only at h
      by_cases ha : added
      all_goals simp only [ha, Bool.not_true, Bool.not_false, if_false, if_true] at h
      -- added = true : the loop ticks on t itself
      · rcases Nat.lt_or_ge t.minute 59 with hc | hc
        · have hfields := addNS_min hv hns
          rw [if_pos hc] at hfields
          have htick := tick_min hv hns
          rw [if_neg (by simp [hfields])] at h
          have ihres := ih htick.1 htick.2.1 h
          rw [hfields] at ihres htick
          dsimp only at ihres
          exact ⟨ihres.1, ihres.2.1, ihres.2.2.1, ihres.2.2.2.1, ihres.2.2.2.2.1,
            ihres.2.2.2.2.2.1, ihres.2.2.2.2.2.2.1, by have := ihres.2.2.2.2.2.2.2; omega⟩
        · have hm0 : (addNS 60000000000 t).minute = 0 := by
            rw [addNS_min hv hns]
            have hv2 := hv
            obtain ⟨h1, h2, h3, h4, h5, h6, h7, h8, h9⟩ := hv2
            split_ifs <;> dsimp only <;> omega
          rw [if_pos (by simp [hm0])] at h
          cases h
      -- added = false : reset to the top of the minute first
      · set r : DateTime := { t with second := 0, ns := 0 } with hr
        have hvr : Valid r := by
          unfold Valid at hv ⊢
          dsimp only [hr]
          omega
        have hnr : r.ns = 0 := rfl
        have hrt : toNS t - 60000000000 < toNS r ∧ toNS r ≤ toNS t := by
          unfold Valid at hv
          unfold toNS
          dsimp only [hr]
          push_cast
          omega
        rcases Nat.lt_or_ge t.minute 59 with hc | hc
        · have hfields := addNS_min hvr hnr
          rw [if_pos (by dsimp only [hr]; omega)] at hfields
          have htick := tick_min hvr hnr
          rw [if_neg (by simp [hfields])] at h
          have ihres := ih htick.1 htick.2.1 h
          rw [hfields] at ihres htick
          dsimp only [hr] at ihres htick
          exact ⟨ihres.1, ihres.2.1, ihres.2.2.1, ihres.2.2.2.1, ihres.2.2.2.2.1,
            ihres.2.2.2.2.2.1, ihres.2.2.2.2.2.2.1,
            by have h9 := ihres.2.2.2.2.2.2.2; have := hrt.1; have := hrt.2; omega⟩
        · have hm0 : (addNS 60000000000 r).minute = 0 := by
            rw [addNS_min hvr hnr]
            have hv2 := hvr
            obtain ⟨h1, h2, h3, h4, h5, h6, h7, h8, h9⟩ := hv2
            split_ifs <;> dsimp only <;> dsimp only [hr] at * <;> omega
          rw [if_pos (by simp [hm0])] at h
          cases h

theorem minuteLoop_wrap {s : SpecSchedule} {fuel : Nat} :
    ∀ {t : DateTime} {added : Bool} {t' : DateTime} {a' : Bool},
      Valid t → t.ns = 0 → 61 ≤ t.minute + fuel →
      minuteLoop s fuel t added = .wrap t' a' →
      Valid t' ∧ t'.ns = 0 ∧ t'.minute = 0 ∧ toNS t < toNS t' ∧
        ((t'.year = t.year ∧ t'.month = t.month ∧ t'.day = t.day) ∨
          (t'.hour = 0 ∧ ((t'.year = t.year ∧ t'.month = t.month) ∨ t'.day = 1))) := by
  induction fuel with
  | zero =>
    intro t added t' a' hv hns hf h
    exact absurd hv (by unfold Valid; omega)
  | succ n ih =>
    intro t added t' a' hv hns hf h
    rw [minuteLoop] at h
    by_cases hb : goBit s.Minute t.minute
    · rw [if_pos (by simp [hb])] at h
      cases h
    · rw [if_neg (by simp [hb])] at h
      dsimp only at h
      by_cases ha : added
      all_goals simp only [ha, Bool.not_true, Bool.not_false, Bool.false_eq_true,
        Bool.true_eq_false, if_false, if_true, ite_false, ite_true] at h
      · have htick := tick_min hv hns
        rcases Nat.lt_or_ge t.minute 59 with hc | hc
        · have hfields := addNS_min hv hns
          rw [if_pos hc] at hfields
          rw [if_neg (by simp [hfields])] at h
          have ihres := ih htick.1 htick.2.1 (by rw [hfields]; dsimp only; omega) h
          rw [hfields] at ihres htick
          dsimp only at ihres
          exact ⟨ihres.1, ihres.2.1, ihres.2.2.1, by have := ihres.2.2.2.1; omega,
            ihres.2.2.2.2⟩
        · have hm0 : (addNS 60000000000 t).minute = 0 := by
            rw [addNS_min hv hns]
            have hv2 := hv
            obtain ⟨h1, h2, h3, h4, h5, h6, h7, h8, h9⟩ := hv2
            split_ifs <;> dsimp only <;> omega
          rw [if_pos (by simp [hm0])] at h
          cases h
          refine ⟨htick.1, htick.2.1, hm0, by omega, ?_⟩
          have hfields := addNS_min hv hns
          rw [if_neg (by omega)] at hfields
          have hv2 := hv
          obtain ⟨h1, h2, h3, h4, h5, h6, h7, h8, h9⟩ := hv2
          split_ifs at hfields <;> rw [hfields] <;> dsimp only
          · exact Or.inl ⟨rfl, rfl, rfl⟩
          · exact Or.inr ⟨rfl, Or.inl ⟨rfl, rfl⟩⟩
          · exact Or.inr ⟨rfl, Or.inr rfl⟩
          · exact Or.inr ⟨rfl, Or.inr rfl⟩
      · set r : DateTime := { t with second := 0, ns := 0 } with hr
        have hvr : Valid r := by
          unfold Valid at hv ⊢
          dsimp only [hr]
          omega
        have hnr : r.ns = 0 := rfl
        have hrt : toNS t - 60000000000 < toNS r ∧ toNS r ≤ toNS t := by
          unfold Valid at hv
          unfold toNS
          dsimp only [hr]
          push_cast
          omega
        have htick := tick_min hvr hnr
        rcases Nat.lt_or_ge t.minute 59 with hc | hc
        · have hfields := addNS_min hvr hnr
          rw [if_pos (by dsimp only [hr]; omega)] at hfields
          rw [if_neg (by simp [hfields])] at h
          have ihres := ih htick.1 htick.2.1 (by rw [hfields]; dsimp only [hr]; omega) h
          rw [hfields] at ihres htick
          dsimp only [hr] at ihres htick
          exact ⟨ihres.1, ihres.2.1, ihres.2.2.1,
            by have := ihres.2.2.2.1; have := hrt.1; have := hrt.2; omega,
            ihres.2.2.2.2⟩
        · have hm0 : (addNS 60000000000 r).minute = 0 := by
            rw [addNS_min hvr hnr]
            have hv2 := hvr
            obtain ⟨h1, h2, h3, h4, h5, h6, h7, h8, h9⟩ := hv2
            split_ifs <;> dsimp only <;> dsimp only [hr] at * <;> omega
          rw [if_pos (by simp [hm0])] at h
          cases h
          refine ⟨htick.1, htick.2.1, hm0, by have := htick.2.2; have := hrt.1; omega, ?_⟩
          have hfields := addNS_min hvr hnr
          rw [if_neg (by dsimp only [hr]; omega)] at hfields
          have hv2 := hv
          obtain ⟨h1, h2, h3, h4, h5, h6, h7, h8, h9⟩ := hv2
          split_ifs at hfields <;> rw [hfields] <;> dsimp only [hr]
          · exact Or.inl ⟨rfl, rfl, rfl⟩
          · exact Or.inr ⟨rfl, Or.inl ⟨rfl, rfl⟩⟩
          · exact Or.inr ⟨rfl, Or.inr rfl⟩
          · exact Or.inr ⟨rfl, Or.inr rfl⟩

theorem hourLoop_done {s : SpecSchedule} {fuel : Nat} :
    ∀ {t : DateTime} {added : Bool} {t' : DateTime} {a' : Bool},
      Valid t → t.ns = 0 → hourLoop s fuel t added = .done t' a' →
      Valid t' ∧ t'.ns = 0 ∧ goBit s.Hour t'.hour = true ∧
        t'.day = t.day ∧ t'.month = t.month ∧ t'.year = t.year ∧ toNS t ≤ toNS t' := by
  induction fuel with
  | zero =>
    intro t added t' a' hv hns h
    simp [hourLoop] at h
  | succ n ih =>
    intro t added t' a' hv hns h
    rw [hourLoop] at h
    by_cases hb : goBit s.Hour t.hour
    · rw [if_pos (by simp [hb])] at h
      cases h
      exact ⟨hv, hns, hb, rfl, rfl, rfl, le_refl _⟩
    · rw [if_neg (by simp [hb])] at h
      dsimp only at h
      rw [dateYMDHMS_eq (by unfold Valid at hv; omega) t.hour 0 0] at h
      by_cases ha : added
      all_goals simp only [ha, Bool.not_true, Bool.not_false, Bool.false_eq_true,
        Bool.true_eq_false, if_false, if_true, ite_false, ite_true] at h
      · have htick := tick_hour hv hns
        rcases Nat.lt_or_ge t.hour 23 with hc | hc
        · have hfields := addNS_hour hv hns
          rw [if_pos hc] at hfields
          rw [if_neg (by simp [hfields])] at h
          have ihres := ih htick.1 htick.2.1 h
          rw [hfields] at ihres htick
          dsimp only at ihres
          exact ⟨ihres.1, ihres.2.1, ihres.2.2.1, ihres.2.2.2.1, ihres.2.2.2.2.1,
            ihres.2.2.2.2.2.1, by have := ihres.2.2.2.2.2.2; omega⟩
        · have hh0 : (addNS 3600000000000 t).hour = 0 := by
            rw [addNS_hour hv hns]
            have hv2 := hv
            obtain ⟨h1, h2, h3, h4, h5, h6, h7, h8, h9⟩ := hv2
            split_ifs <;> dsimp only <;> omega
          rw [if_pos (by simp [hh0])] at h
          cases h
      · set r : DateTime := ⟨t.year, t.month, t.day, t.hour, 0, 0, 0⟩ with hr
        have hvr : Valid r := by
          unfold Valid at hv ⊢
          dsimp only [hr]
          omega
        have hnr : r.ns = 0 := rfl
        have hrt : toNS t - 3600000000000 < toNS r ∧ toNS r ≤ toNS t := by
          unfold Valid at hv
          unfold toNS
          dsimp only [hr]
          push_cast
          omega
        have htick := tick_hour hvr hnr
        rcases Nat.lt_or_ge t.hour 23 with hc | hc
        · have hfields := addNS_hour hvr hnr
          rw [if_pos (by dsimp only [hr]; omega)] at hfields
          rw [if_neg (by simp [hfields])] at h
          have ihres := ih htick.1 htick.2.1 h
          rw [hfields] at ihres htick
          dsimp only [hr] at ihres htick
          exact ⟨ihres.1, ihres.2.1, ihres.2.2.1, ihres.2.2.2.1, ihres.2.2.2.2.1,
            ihres.2.2.2.2.2.1,
            by have := ihres.2.2.2.2.2.2; have := hrt.1; have := hrt.2; omega⟩
        · have hh0 : (addNS 3600000000000 r).hour = 0 := by
            rw [addNS_hour hvr hnr]
            have hv2 := hvr
            obtain ⟨h1, h2, h3, h4, h5, h6, h7, h8, h9⟩ := hv2
            split_ifs <;> dsimp only <;> dsimp only [hr] at * <;> omega
          rw [if_pos (by simp [hh0])] at h
          cases h

theorem hourLoop_wrap {s : SpecSchedule} {fuel : Nat} :
    ∀ {t : DateTime} {added : Bool} {t' : DateTime} {a' : Bool},
      Valid t → t.ns = 0 → 25 ≤ t.hour + fuel →
      hourLoop s fuel t added = .wrap t' a' →
      Valid t' ∧ t'.ns = 0 ∧ t'.hour = 0 ∧ toNS t < toNS t' ∧
        ((t'.year = t.year ∧ t'.month = t.month) ∨ t'.day = 1) := by
  induction fuel with
  | zero =>
    intro t added t' a' hv hns hf h
    exact absurd hv (by unfold Valid; omega)
  | succ n ih =>
    intro t added t' a' hv hns hf h
    rw [hourLoop] at h
    by_cases hb : goBit s.Hour t.hour
    · rw [if_pos (by simp [hb])] at h
      cases h
    · rw [if_neg (by simp [hb])] at h
      dsimp only at h
      rw [dateYMDHMS_eq (by unfold Valid at hv; omega) t.hour 0 0] at h
      by_cases ha : added
      all_goals simp only [ha, Bool.not_true, Bool.not_false, Bool.false_eq_true,
        Bool.true_eq_false, if_false, if_true, ite_false, ite_true] at h
      · have htick := tick_hour hv hns
        rcases Nat.lt_or_ge t.hour 23 with hc | hc
        · have hfields := addNS_hour hv hns
          rw [if_pos hc] at hfields
          rw [if_neg (by simp [hfields])] at h
          have ihres := ih htick.1 htick.2.1 (by rw [hfields]; dsimp only; omega) h
          rw [hfields] at ihres htick
          dsimp only at ihres
          exact ⟨ihres.1, ihres.2.1, ihres.2.2.1, by have := ihres.2.2.2.1; omega,
            ihres.2.2.2.2⟩
        · have hh0 : (addNS 3600000000000 t).hour = 0 := by
            rw [addNS_hour hv hns]
            have hv2 := hv
            obtain ⟨h1, h2, h3, h4, h5, h6, h7, h8, h9⟩ := hv2
            split_ifs <;> dsimp only <;> omega
          rw [if_pos (by simp [hh0])] at h
          cases h
          refine ⟨htick.1, htick.2.1, hh0, by have := htick.2.2; omega, ?_⟩
          have hfields := addNS_hour hv hns
          rw [if_neg (by omega)] at hfields
          have hv2 := hv
          obtain ⟨h1, h2, h3, h4, h5, h6, h7, h8, h9⟩ := hv2
          split_ifs at hfields <;> rw [hfields]
          · exact Or.inl ⟨rfl, rfl⟩
          · exact Or.inr rfl
          · exact Or.inr rfl
      · set r : DateTime := ⟨t.year, t.month, t.day, t.hour, 0, 0, 0⟩ with hr
        have hvr : Valid r := by
          unfold Valid at hv ⊢
          dsimp only [hr]
          omega
        have hnr : r.ns = 0 := rfl
        have hrt : toNS t - 3600000000000 < toNS r ∧ toNS r ≤ toNS t := by
          unfold Valid at hv
          unfold toNS
          dsimp only [hr]
          push_cast
          omega
        have htick := tick_hour hvr hnr
        rcases Nat.lt_or_ge t.hour 23 with hc | hc
        · have hfields := addNS_hour hvr hnr
          rw [if_pos (by dsimp only [hr]; omega)] at hfields
          rw [if_neg (by simp [hfields])] at h
          have ihres := ih htick.1 htick.2.1 (by rw [hfields]; dsimp only [hr]; omega) h
          rw [hfields] at ihres htick
          dsimp only [hr] at ihres htick
          exact ⟨ihres.1, ihres.2.1, ihres.2.2.1,
            by have := ihres.2.2.2.1; have := hrt.1; have := hrt.2; omega,
            ihres.2.2.2.2⟩
        · have hh0 : (addNS 3600000000000 r).hour = 0 := by
            rw [addNS_hour hvr hnr]
            have hv2 := hvr
            obtain ⟨h1, h2, h3, h4, h5, h6, h7, h8, h9⟩ := hv2
            split_ifs <;> dsimp only <;> dsimp only [hr] at * <;> omega
          rw [if_pos (by simp [hh0])] at h
          cases h
          refine ⟨htick.1, htick.2.1, hh0, by have := htick.2.2; have := hrt.1; omega, ?_⟩
          have hfields := addNS_hour hvr hnr
          rw [if_neg (by dsimp only [hr]; omega)] at hfields
          have hv2 := hv
          obtain ⟨h1, h2, h3, h4, h5, h6, h7, h8, h9⟩ := hv2
          split_ifs at hfields <;> rw [hfields] <;> dsimp only [hr]
          · exact Or.inl ⟨rfl, rfl⟩
          · exact Or.inr rfl
          · exact Or.inr rfl

theorem tick_day {t : DateTime} (hv : Valid t) :
    Valid (addDayGo t) ∧ (addDayGo t).ns = t.ns ∧
      toNS (addDayGo t) = toNS t + 86400000000000 := by
  have hv2 := hv
  obtain ⟨h1, h2, h3, h4, h5, h6, h7, h8, h9⟩ := hv2
  refine ⟨?_, ?_, toNS_addDayGo h1 h2 h3 h4⟩ <;>
    rw [addDayGo_eq hv] <;>
    have p1 := daysInMonth_pos t.year (t.month + 1) <;>
    have p2 := daysInMonth_pos (t.year + 1) 1 <;>
    split_ifs <;>
    unfold Valid at * <;>
    dsimp only <;>
    omega

theorem dayLoop_done {s : SpecSchedule} {fuel : Nat} :
    ∀ {t : DateTime} {added : Bool} {t' : DateTime} {a' : Bool},
      Valid t → t.ns = 0 → (added = true → t.hour = 0 ∨ dayMatches s t = true) →
      dayLoop s fuel t added = .done t' a' →
      Valid t' ∧ t'.ns = 0 ∧ dayMatches s t' = true ∧
        t'.month = t.month ∧ t'.year = t.year ∧ toNS t ≤ toNS t' := by
  induction fuel with
  | zero =>
    intro t added t' a' hv hns hH h
    simp [dayLoop] at h
  | succ n ih =>
    intro t added t' a' hv hns hH h
    rw [dayLoop] at h
    by_cases hb : dayMatches s t
    · rw [if_pos (by simp [hb])] at h
      cases h
      exact ⟨hv, hns, hb, rfl, rfl, le_refl _⟩
    · rw [if_neg (by simp [hb])] at h
      dsimp only at h
      rw [dateYMDHMS_eq (by unfold Valid at hv; omega) 0 0 0] at h
      by_cases ha : added
      all_goals simp only [ha, Bool.not_true, Bool.not_false, Bool.false_eq_true,
        Bool.true_eq_false, if_false, if_true, ite_false, ite_true] at h
      · have hh0 : t.hour = 0 := by
          rcases hH ha with h0 | h0
          · exact h0
          · exact absurd h0 hb
        have hfields := addDayGo_eq hv
        have htick := tick_day hv
        have ht2h : (addDayGo t).hour = 0 := by
          rw [hfields]; split_ifs <;> dsimp only <;> omega
        rw [show dstFix (addDayGo t) = addDayGo t from by unfold dstFix; simp [ht2h]] at h
        have hv2 := hv
        obtain ⟨h1, h2, h3, h4, h5, h6, h7, h8, h9⟩ := hv2
        rcases Nat.lt_or_ge t.day (daysInMonth t.year t.month) with hc | hc
        · rw [if_pos hc] at hfields
          have hd1 : ((addDayGo t).day == 1) = false := by
            rw [hfields]; dsimp only; simp; omega
          rw [hd1] at h
          simp only [Bool.false_eq_true, if_false, ite_false] at h
          have ihres := ih htick.1 (by rw [htick.2.1, hns])
            (fun _ => Or.inl ht2h) h
          rw [hfields] at ihres htick
          dsimp only at ihres
          exact ⟨ihres.1, ihres.2.1, ihres.2.2.1, ihres.2.2.2.1, ihres.2.2.2.2.1,
            by have := ihres.2.2.2.2.2; omega⟩
        · have hd1 : (addDayGo t).day = 1 := by
            rw [hfields]; split_ifs <;> dsimp only <;> omega
          rw [if_pos (by simp [hd1])] at h
          cases h
      · set r : DateTime := ⟨t.year, t.month, t.day, 0, 0, 0, 0⟩ with hr
        have hvr : Valid r := by
          unfold Valid at hv ⊢
          dsimp only [hr]
          omega
        have hrt : toNS t - 86400000000000 < toNS r ∧ toNS r ≤ toNS t := by
          unfold Valid at hv
          unfold toNS
          dsimp only [hr]
          push_cast
          omega
        have hfields := addDayGo_eq hvr
        have htick := tick_day hvr
        have ht2h : (addDayGo r).hour = 0 := by
          rw [hfields]; split_ifs <;> dsimp only <;> omega
        rw [show dstFix (addDayGo r) = addDayGo r from by unfold dstFix; simp [ht2h]] at h
        have hv2 := hvr
        obtain ⟨h1, h2, h3, h4, h5, h6, h7, h8, h9⟩ := hv2
        rcases Nat.lt_or_ge r.day (daysInMonth r.year r.month) with hc | hc
        · rw [if_pos hc] at hfields
          have hd1 : ((addDayGo r).day == 1) = false := by
            rw [hfields]; dsimp only; simp; unfold Valid at hv; omega
          rw [hd1] at h
          simp only [Bool.false_eq_true, if_false, ite_false] at h
          have ihres := ih htick.1 (by rw [htick.2.1]) (fun _ => Or.inl ht2h) h
          rw [hfields] at ihres htick
          dsimp only [hr] at ihres htick hrt
          exact ⟨ihres.1, ihres.2.1, ihres.2.2.1, ihres.2.2.2.1, ihres.2.2.2.2.1,
            by have := ihres.2.2.2.2.2; have := hrt.1; have := hrt.2; have := htick.2.2; omega⟩
        · have hd1 : (addDayGo r).day = 1 := by
            rw [hfields]; split_ifs <;> dsimp only <;> omega
          rw [if_pos (by simp [hd1])] at h
          cases h

theorem dayLoop_wrap {s : SpecSchedule} {fuel : Nat} :
    ∀ {t : DateTime} {added : Bool} {t' : DateTime} {a' : Bool},
      Valid t → t.ns = 0 → (added = true → t.hour = 0 ∨ dayMatches s t = true) →
      33 ≤ t.day + fuel →
      dayLoop s fuel t added = .wrap t' a' →
      Valid t' ∧ t'.ns = 0 ∧ t'.day = 1 ∧ t'.hour = 0 ∧ toNS t < toNS t' := by
  induction fuel with
  | zero =>
    intro t added t' a' hv hns hH hf h
    have := daysInMonth_le31 t.year t.month
    exact absurd hv (by unfold Valid; omega)
  | succ n ih =>
    intro t added t' a' hv hns hH hf h
    rw [dayLoop] at h
    by_cases hb : dayMatches s t
    · rw [if_pos (by simp [hb])] at h
      cases h
    · rw [if_neg (by simp [hb])] at h
      dsimp only at h
      rw [dateYMDHMS_eq (by unfold Valid at hv; omega) 0 0 0] at h
      by_cases ha : added
      all_goals simp only [ha, Bool.not_true, Bool.not_false, Bool.false_eq_true,
        Bool.true_eq_false, if_false, if_true, ite_false, ite_true] at h
      · have hh0 : t.hour = 0 := by
          rcases hH ha with h0 | h0
          · exact h0
          · exact absurd h0 hb
        have hfields := addDayGo_eq hv
        have htick := tick_day hv
        have ht2h : (addDayGo t).hour = 0 := by
          rw [hfields]; split_ifs <;> dsimp only <;> omega
        rw [show dstFix (addDayGo t) = addDayGo t from by unfold dstFix; simp [ht2h]] at h
        have hv2 := hv
        obtain ⟨h1, h2, h3, h4, h5, h6, h7, h8, h9⟩ := hv2
        rcases Nat.lt_or_ge t.day (daysInMonth t.year t.month) with hc | hc
        · rw [if_pos hc] at hfields
          have hd1 : ((addDayGo t).day == 1) = false := by
            rw [hfields]; dsimp only; simp; omega
          rw [hd1] at h
          simp only [Bool.false_eq_true, if_false, ite_false] at h
          have ihres := ih htick.1 (by rw [htick.2.1, hns]) (fun _ => Or.inl ht2h)
            (by rw [hfields]; dsimp only; omega) h
          exact ⟨ihres.1, ihres.2.1, ihres.2.2.1, ihres.2.2.2.1,
            by have := ihres.2.2.2.2; have := htick.2.2; omega⟩
        · have hd1 : (addDayGo t).day = 1 := by
            rw [hfields]; split_ifs <;> dsimp only <;> omega
          rw [if_pos (by simp [hd1])] at h
          cases h
          exact ⟨htick.1, by rw [htick.2.1, hns], hd1, ht2h, by have := htick.2.2; omega⟩
      · set r : DateTime := ⟨t.year, t.month, t.day, 0, 0, 0, 0⟩ with hr
        have hvr : Valid r := by
          unfold Valid at hv ⊢
          dsimp only [hr]
          omega
        have hrt : toNS t - 86400000000000 < toNS r ∧ toNS r ≤ toNS t := by
          unfold Valid at hv
          unfold toNS
          dsimp only [hr]
          push_cast
          omega
        have hfields := addDayGo_eq hvr
        have htick := tick_day hvr
        have ht2h : (addDayGo r).hour = 0 := by
          rw [hfields]; split_ifs <;> dsimp only <;> omega
        rw [show dstFix (addDayGo r) = addDayGo r from by unfold dstFix; simp [ht2h]] at h
        have hv2 := hvr
        obtain ⟨h1, h2, h3, h4, h5, h6, h7, h8, h9⟩ := hv2
        rcases Nat.lt_or_ge r.day (daysInMonth r.year r.month) with hc | hc
        · rw [if_pos hc] at hfields
          have hd1 : ((addDayGo r).day == 1) = false := by
            rw [hfields]; dsimp only; simp; unfold Valid at hv; omega
          rw [hd1] at h
          simp only [Bool.false_eq_true, if_false, ite_false] at h
          have ihres := ih htick.1 (by rw [htick.2.1]) (fun _ => Or.inl ht2h)
            (by rw [hfields]; dsimp only [hr]; omega) h
          refine ⟨ihres.1, ihres.2.1, ihres.2.2.1, ihres.2.2.2.1, ?_⟩
          have hi := ihres.2.2.2.2
          have := htick.2.2
          have := hrt.1
          have := hrt.2
          omega
        · have hd1 : (addDayGo r).day = 1 := by
            rw [hfields]; split_ifs <;> dsimp only <;> omega
          rw [if_pos (by simp [hd1])] at h
          cases h
          refine ⟨htick.1, by rw [htick.2.1], hd1, ht2h, ?_⟩
          have := htick.2.2
          have := hrt.1
          have := hrt.2
          omega

theorem daysLt_nextMonth {y m d : Nat} (hm1 : 1 ≤ m) (hm2 : m ≤ 11)
    (hd : d ≤ daysInMonth y m) :
    daysSinceYear1 y m d < daysSinceYear1 y (m + 1) 1 := by
  have hs := daysBeforeMonth_succ y hm1 hm2
  have hp := daysInMonth_pos y m
  unfold daysSinceYear1
  omega

theorem daysLt_nextYear {y m d : Nat} (hy : 1 ≤ y) (hm1 : 1 ≤ m) (hm2 : m ≤ 12)
    (hd1 : 1 ≤ d) (hd : d ≤ daysInMonth y m) :
    daysSinceYear1 y m d < daysSinceYear1 (y + 1) 1 1 := by
  have h0 := leapsBefore_succ (y - 1)
  have hy1 : y - 1 + 1 = y := by omega
  rw [hy1] at h0
  have hE : daysBeforeMonth y m + d ≤ 365 + (if isLeap y then 1 else 0) := by
    by_cases hl : isLeap y <;>
      interval_cases m <;>
      simp_all [daysBeforeMonth, daysInMonth] <;>
      omega
  have hb1 : daysBeforeMonth (y + 1) 1 = 0 := by simp [daysBeforeMonth]
  unfold daysSinceYear1
  simp only [Nat.add_sub_cancel]
  rw [hb1]
  by_cases hl : isLeap y <;>
    simp only [hl, if_true, if_false, ite_true, ite_false] at hE h0 <;> omega

theorem toNS_lt_of_days_lt {t u : DateTime} (hv : Valid t)
    (h : daysSinceYear1 t.year t.month t.day < daysSinceYear1 u.year u.month u.day) :
    toNS t < toNS u := by
  unfold Valid at hv
  unfold toNS
  push_cast
  omega

theorem monthLoop_done {s : SpecSchedule} {fuel : Nat} :
    ∀ {t : DateTime} {added : Bool} {t' : DateTime} {a' : Bool},
      Valid t → t.ns = 0 → WInv s t added →
      monthLoop s fuel t added = .done t' a' →
      Valid t' ∧ t'.ns = 0 ∧ goBit s.Month t'.month = true ∧ t'.year = t.year ∧
        toNS t ≤ toNS t' ∧ (a' = true → t'.hour = 0 ∨ dayMatches s t' = true) := by
  induction fuel with
  | zero =>
    intro t added t' a' hv hns hM h
    simp [monthLoop] at h
  | succ n ih =>
    intro t added t' a' hv hns hM h
    rw [monthLoop] at h
    by_cases hb : goBit s.Month t.month
    · rw [if_pos (by simp [hb])] at h
      cases h
      refine ⟨hv, hns, hb, rfl, le_refl _, fun haa => ?_⟩
      rcases hM haa with h0 | h0
      · exact Or.inr h0.2
      · exact Or.inl h0.1
    · rw [if_neg (by simp [hb])] at h
      dsimp only at h
      rw [dateYMDHMS_eq (daysInMonth_pos t.year t.month) 0 0 0] at h
      have hv0 := hv
      obtain ⟨h1, h2, h3, h4, h5, h6, h7, h8, h9⟩ := hv0
      by_cases ha : added
      all_goals simp only [ha, Bool.not_true, Bool.not_false, Bool.false_eq_true,
        Bool.true_eq_false, if_false, if_true, ite_false, ite_true] at h
      · have hd1 : t.day = 1 ∧ t.hour = 0 := by
          rcases hM ha with h0 | h0
          · exact absurd h0.1 hb
          · rcases h0.2 with h2' | h2'
            · exact absurd h2' hb
            · exact ⟨h2', h0.1⟩
        have hfields := addMonthGo_eq hd1.1 h3
        have hgt := toNS_addMonthGo_gt h1 h2 h3 hd1.1
        have hvm : Valid (addMonthGo t) := by
          rw [hfields]
          unfold Valid
          have p1 := daysInMonth_pos t.year (t.month + 1)
          have p2 := daysInMonth_pos (t.year + 1) 1
          have hdd := hd1.1
          split_ifs <;> dsimp only <;> omega
        have hnm : (addMonthGo t).ns = 0 := by
          rw [hfields]; split_ifs <;> dsimp only <;> omega
        rcases Nat.lt_or_ge t.month 12 with hc | hc
        · rw [if_pos hc] at hfields
          have hm1 : ((addMonthGo t).month == 1) = false := by
            rw [hfields]; dsimp only; simp; omega
          rw [hm1] at h
          simp only [Bool.false_eq_true, if_false, ite_false] at h
          have ihres := ih hvm hnm
            (fun _ => Or.inr ⟨by rw [hfields]; exact hd1.2, Or.inr (by rw [hfields]; exact hd1.1)⟩) h
          refine ⟨ihres.1, ihres.2.1, ihres.2.2.1, by rw [ihres.2.2.2.1, hfields],
            by have := ihres.2.2.2.2.1; omega, ihres.2.2.2.2.2⟩
        · have hm12 : t.month = 12 := by omega
          rw [if_neg (by omega)] at hfields
          have hm1 : ((addMonthGo t).month == 1) = true := by
            rw [hfields]; dsimp only; simp
          rw [if_pos (by simp [hm1])] at h
          cases h
      · set r : DateTime := ⟨t.year, t.month, 1, 0, 0, 0, 0⟩ with hr
        have hvr : Valid r := by
          unfold Valid at hv ⊢
          dsimp only [hr]
          have := daysInMonth_pos t.year t.month
          omega
        have hrt : toNS r ≤ toNS t := by
          unfold Valid at hv
          unfold toNS
          dsimp only [hr]
          have hdle : daysSinceYear1 t.year t.month 1 ≤ daysSinceYear1 t.year t.month t.day := by
            unfold daysSinceYear1; omega
          push_cast
          omega
        have hfields := addMonthGo_eq (show r.day = 1 from rfl) (show r.month ≤ 12 from h3)
        have hgt := toNS_addMonthGo_gt (show 1 ≤ r.year from h1) (show 1 ≤ r.month from h2)
          (show r.month ≤ 12 from h3) (show r.day = 1 from rfl)
        have hvm : Valid (addMonthGo r) := by
          rw [hfields]
          unfold Valid
          simp only [hr]
          have p1 := daysInMonth_pos t.year (t.month + 1)
          have p2 := daysInMonth_pos (t.year + 1) 1
          split_ifs <;> dsimp only <;> omega
        have hnm : (addMonthGo r).ns = 0 := by
          rw [hfields]; split_ifs <;> dsimp only <;> omega
        rcases Nat.lt_or_ge t.month 12 with hc | hc
        · rw [if_pos (show r.month < 12 from hc)] at hfields
          have hm1 : ((addMonthGo r).month == 1) = false := by
            rw [hfields]; dsimp only [hr]; simp; omega
          rw [hm1] at h
          simp only [Bool.false_eq_true, if_false, ite_false] at h
          have ihres := ih hvm hnm
            (fun _ => Or.inr ⟨by rw [hfields], Or.inr (by rw [hfields])⟩) h
          refine ⟨ihres.1, ihres.2.1, ihres.2.2.1, by rw [ihres.2.2.2.1, hfields], ?_,
            ihres.2.2.2.2.2⟩
          have hi := ihres.2.2.2.2.1
          have hlt : toNS t < toNS (addMonthGo r) :=
            toNS_lt_of_days_lt hv (by rw [hfields]; exact daysLt_nextMonth h2 (by omega) h5)
          omega
        · rw [if_neg (show ¬(r.month < 12) by dsimp only [hr]; omega)] at hfields
          have hm1 : ((addMonthGo r).month == 1) = true := by
            rw [hfields]; dsimp only; simp
          rw [if_pos (by simp [hm1])] at h
          cases h

theorem monthLoop_wrap {s : SpecSchedule} {fuel : Nat} :
    ∀ {t : DateTime} {added : Bool} {t' : DateTime} {a' : Bool},
      Valid t → t.ns = 0 → WInv s t added → 14 ≤ t.month + fuel →
      monthLoop s fuel t added = .wrap t' a' →
      Valid t' ∧ t'.ns = 0 ∧ t'.day = 1 ∧ t'.hour = 0 ∧ toNS t < toNS t' := by
  induction fuel with
  | zero =>
    intro t added t' a' hv hns hM hf h
    exact absurd hv (by unfold Valid; omega)
  | succ n ih =>
    intro t added t' a' hv hns hM hf h
    rw [monthLoop] at h
    by_cases hb : goBit s.Month t.month
    · rw [if_pos (by simp [hb])] at h
      cases h
    · rw [if_neg (by simp [hb])] at h
      dsimp only at h
      rw [dateYMDHMS_eq (daysInMonth_pos t.year t.month) 0 0 0] at h
      have hv0 := hv
      obtain ⟨h1, h2, h3, h4, h5, h6, h7, h8, h9⟩ := hv0
      by_cases ha : added
      all_goals simp only [ha, Bool.not_true, Bool.not_false, Bool.false_eq_true,
        Bool.true_eq_false, if_false, if_true, ite_false, ite_true] at h
      · have hd1 : t.day = 1 ∧ t.hour = 0 := by
          rcases hM ha with h0 | h0
          · exact absurd h0.1 hb
          · rcases h0.2 with h2' | h2'
            · exact absurd h2' hb
            · exact ⟨h2', h0.1⟩
        have hfields := addMonthGo_eq hd1.1 h3
        have hgt := toNS_addMonthGo_gt h1 h2 h3 hd1.1
        have hvm : Valid (addMonthGo t) := by
          rw [hfields]
          unfold Valid
          have p1 := daysInMonth_pos t.year (t.month + 1)
          have p2 := daysInMonth_pos (t.year + 1) 1
          have hdd := hd1.1
          split_ifs <;> dsimp only <;> omega
        have hnm : (addMonthGo t).ns = 0 := by
          rw [hfields]; split_ifs <;> dsimp only <;> omega
        rcases Nat.lt_or_ge t.month 12 with hc | hc
        · rw [if_pos hc] at hfields
          have hm1 : ((addMonthGo t).month == 1) = false := by
            rw [hfields]; dsimp only; simp; omega
          rw [hm1] at h
          simp only [Bool.false_eq_true, if_false, ite_false] at h
          have ihres := ih hvm hnm
            (fun _ => Or.inr ⟨by rw [hfields]; exact hd1.2, Or.inr (by rw [hfields]; exact hd1.1)⟩)
            (by rw [hfields]; dsimp only; omega) h
          exact ⟨ihres.1, ihres.2.1, ihres.2.2.1, ihres.2.2.2.1,
            by have := ihres.2.2.2.2; omega⟩
        · rw [if_neg (by omega)] at hfields
          have hm1 : ((addMonthGo t).month == 1) = true := by
            rw [hfields]; dsimp only; simp
          rw [if_pos (by simp [hm1])] at h
          cases h
          refine ⟨hvm, hnm, by rw [hfields]; exact hd1.1, by rw [hfields]; exact hd1.2, hgt⟩
      · set r : DateTime := ⟨t.year, t.month, 1, 0, 0, 0, 0⟩ with hr
        have hvr : Valid r := by
          unfold Valid at hv ⊢
          dsimp only [hr]
          have := daysInMonth_pos t.year t.month
          omega
        have hfields := addMonthGo_eq (show r.day = 1 from rfl) (show r.month ≤ 12 from h3)
        have hvm : Valid (addMonthGo r) := by
          rw [hfields]
          unfold Valid
          simp only [hr]
          have p1 := daysInMonth_pos t.year (t.month + 1)
          have p2 := daysInMonth_pos (t.year + 1) 1
          split_ifs <;> dsimp only <;> omega
        have hnm : (addMonthGo r).ns = 0 := by
          rw [hfields]; split_ifs <;> dsimp only <;> omega
        rcases Nat.lt_or_ge t.month 12 with hc | hc
        · rw [if_pos (show r.month < 12 from hc)] at hfields
          have hm1 : ((addMonthGo r).month == 1) = false := by
            rw [hfields]; dsimp only [hr]; simp; omega
          rw [hm1] at h
          simp only [Bool.false_eq_true, if_false, ite_false] at h
          have ihres := ih hvm hnm
            (fun _ => Or.inr ⟨by rw [hfields], Or.inr (by rw [hfields])⟩)
            (by rw [hfields]; simp only [hr]; omega) h
          refine ⟨ihres.1, ihres.2.1, ihres.2.2.1, ihres.2.2.2.1, ?_⟩
          have hi := ihres.2.2.2.2
          have hlt : toNS t < toNS (addMonthGo r) :=
            toNS_lt_of_days_lt hv (by rw [hfields]; exact daysLt_nextMonth h2 (by omega) h5)
          omega
        · rw [if_neg (show ¬(r.month < 12) by dsimp only [hr]; omega)] at hfields
          have hm1 : ((addMonthGo r).month == 1) = true := by
            rw [hfields]; dsimp only; simp
          rw [if_pos (by simp [hm1])] at h
          cases h
          refine ⟨hvm, hnm, by rw [hfields], by rw [hfields], ?_⟩
          exact toNS_lt_of_days_lt hv
            (by rw [hfields]; exact daysLt_nextYear h1 h2 h3 h4 h5)

theorem wrapLoop_some {s : SpecSchedule} {yl : Nat} {fuel : Nat} :
    ∀ {t : DateTime} {added : Bool} {u : DateTime},
      Valid t → t.ns = 0 → WInv s t added →
      wrapLoop s yl fuel t added = some u →
      Valid u ∧ u.ns = 0 ∧ toNS t ≤ toNS u ∧ u.year ≤ yl ∧
        goBit s.Second u.second = true ∧ goBit s.Minute u.minute = true ∧
        goBit s.Hour u.hour = true ∧ goBit s.Month u.month = true ∧
        dayMatches s u = true := by
  induction fuel with
  | zero =>
    intro t added u hv hns hM h
    simp [wrapLoop] at h
  | succ n ih =>
    intro t added u hv hns hM h
    rw [wrapLoop] at h
    by_cases hy : yl < t.year
    · rw [if_pos hy] at h
      simp at h
    · rw [if_neg hy] at h
      rcases hm : monthLoop s 14 t added with ⟨t1, a1⟩ | ⟨t1, a1⟩
      swap
      ·
        rw [hm] at h
        dsimp only at h
        have W := monthLoop_wrap hv hns hM (by unfold Valid at hv; omega) hm
        have ihres := ih W.1 W.2.1 (fun _ => Or.inr ⟨W.2.2.2.1, Or.inr W.2.2.1⟩) h
        exact ⟨ihres.1, ihres.2.1, by have := W.2.2.2.2; have := ihres.2.2.1; omega,
          ihres.2.2.2⟩
      rw [hm] at h
      dsimp only at h
      have M := monthLoop_done hv hns hM hm
      rcases hd : dayLoop s 40 t1 a1 with ⟨t2, a2⟩ | ⟨t2, a2⟩
      swap
      ·
        rw [hd] at h
        dsimp only at h
        have W := dayLoop_wrap M.1 M.2.1 M.2.2.2.2.2 (by unfold Valid at M; omega) hd
        have ihres := ih W.1 W.2.1 (fun _ => Or.inr ⟨W.2.2.2.1, Or.inr W.2.2.1⟩) h
        exact ⟨ihres.1, ihres.2.1,
          by have := M.2.2.2.2.1; have := W.2.2.2.2; have := ihres.2.2.1; omega,
          ihres.2.2.2⟩
      rw [hd] at h
      dsimp only at h
      have D := dayLoop_done M.1 M.2.1 M.2.2.2.2.2 hd
      rcases hh : hourLoop s 26 t2 a2 with ⟨t3, a3⟩ | ⟨t3, a3⟩
      swap
      ·
        rw [hh] at h
        dsimp only at h
        have W := hourLoop_wrap D.1 D.2.1 (by unfold Valid at D; omega) hh
        have hMb : goBit s.Month t2.month = true := by rw [D.2.2.2.1]; exact M.2.2.1
        have ihres := ih W.1 W.2.1
          (fun _ => Or.inr ⟨W.2.2.1, by
            rcases W.2.2.2.2 with h0 | h0
            · exact Or.inl (by rw [h0.2]; exact hMb)
            · exact Or.inr h0⟩) h
        exact ⟨ihres.1, ihres.2.1,
          by have := M.2.2.2.2.1; have := D.2.2.2.2.2; have := W.2.2.2.1
             have := ihres.2.2.1; omega,
          ihres.2.2.2⟩
      rw [hh] at h
      dsimp only at h
      have H := hourLoop_done D.1 D.2.1 hh
      have hMb3 : goBit s.Month t3.month = true := by
        rw [H.2.2.2.2.1, D.2.2.2.1]; exact M.2.2.1
      have hDm3 : dayMatches s t3 = true := by
        rw [dayMatches_congr H.2.2.2.2.2.1 H.2.2.2.2.1 H.2.2.2.1]
        exact D.2.2.1
      rcases hmi : minuteLoop s 62 t3 a3 with ⟨t4, a4⟩ | ⟨t4, a4⟩
      swap
      ·
        rw [hmi] at h
        dsimp only at h
        have W := minuteLoop_wrap H.1 H.2.1 (by unfold Valid at H; omega) hmi
        have ihres := ih W.1 W.2.1
          (fun _ => by
            rcases W.2.2.2.2 with h0 | h0
            · exact Or.inl ⟨by rw [h0.2.1]; exact hMb3,
                by rw [dayMatches_congr h0.1 h0.2.1 h0.2.2]; exact hDm3⟩
            · refine Or.inr ⟨h0.1, ?_⟩
              rcases h0.2 with h1 | h1
              · exact Or.inl (by rw [h1.2]; exact hMb3)
              · exact Or.inr h1) h
        exact ⟨ihres.1, ihres.2.1,
          by have := M.2.2.2.2.1; have := D.2.2.2.2.2; have := H.2.2.2.2.2.2
             have := W.2.2.2.1; have := ihres.2.2.1; omega,
          ihres.2.2.2⟩
      rw [hmi] at h
      dsimp only at h
      have Mi := minuteLoop_done H.1 H.2.1 hmi
      have hMb4 : goBit s.Month t4.month = true := by rw [Mi.2.2.2.2.2.1]; exact hMb3
      have hDm4 : dayMatches s t4 = true := by
        rw [dayMatches_congr Mi.2.2.2.2.2.2.1 Mi.2.2.2.2.2.1 Mi.2.2.2.2.1]
        exact hDm3
      have hHb4 : goBit s.Hour t4.hour = true := by rw [Mi.2.2.2.1]; exact H.2.2.1
      rcases hs2 : secondLoop s 62 t4 a4 with ⟨t5, a5⟩ | ⟨t5, a5⟩
      swap
      ·
        rw [hs2] at h
        dsimp only at h
        have W := secondLoop_wrap Mi.1 Mi.2.1 (by unfold Valid at Mi; omega) hs2
        have ihres := ih W.1 W.2.1
          (fun _ => by
            rcases W.2.2.2.2 with h0 | h0
            · exact Or.inl ⟨by rw [h0.2.1]; exact hMb4,
                by rw [dayMatches_congr h0.1 h0.2.1 h0.2.2]; exact hDm4⟩
            · refine Or.inr ⟨h0.1, ?_⟩
              rcases h0.2 with h1 | h1
              · exact Or.inl (by rw [h1.2]; exact hMb4)
              · exact Or.inr h1) h
        exact ⟨ihres.1, ihres.2.1,
          by have := M.2.2.2.2.1; have := D.2.2.2.2.2; have := H.2.2.2.2.2.2
             have := Mi.2.2.2.2.2.2.2; have := W.2.2.2.1; have := ihres.2.2.1; omega,
          ihres.2.2.2⟩
      rw [hs2] at h
      dsimp only at h
      cases h
      have S := secondLoop_done Mi.1 Mi.2.1 hs2
      refine ⟨S.1, S.2.1, ?_, ?_, S.2.2.1, ?_, ?_, ?_, ?_⟩
      · have := M.2.2.2.2.1; have := D.2.2.2.2.2; have := H.2.2.2.2.2.2
        have := Mi.2.2.2.2.2.2.2; have := S.2.2.2.2.2.2.2.2; omega
      · rw [S.2.2.2.2.2.2.2.1, Mi.2.2.2.2.2.2.1, H.2.2.2.2.2.1, D.2.2.2.2.1, M.2.2.2.1]
        omega
      · rw [S.2.2.2.1]; exact Mi.2.2.1
      · rw [S.2.2.2.2.1]; exact hHb4
      · rw [S.2.2.2.2.2.2.1]; exact hMb4
      · rw [dayMatches_congr S.2.2.2.2.2.2.2.1 S.2.2.2.2.2.2.1 S.2.2.2.2.2.1]
        exact hDm4

theorem addNS_ext {d1 d2 : Int} {t u : DateTime} (h : (t.ns : Int) + d1 = (u.ns : Int) + d2)
    (hy : t.year = u.year) (hm : t.month = u.month) (hd : t.day = u.day)
    (hh : t.hour = u.hour) (hmi : t.minute = u.minute) (hs : t.second = u.second) :
    addNS d1 t = addNS d2 u := by
  obtain ⟨y1, m1, dd1, hh1, mi1, s1, n1⟩ := t
  obtain ⟨y2, m2, dd2, hh2, mi2, s2, n2⟩ := u
  simp only at h hy hm hd hh hmi hs
  subst hy; subst hm; subst hd; subst hh; subst hmi; subst hs
  simp only [addNS]
  rw [h]

theorem next_some_sound {s : SpecSchedule} {t u : DateTime} (hv : Valid t)
    (h : SpecSchedule.next s t = some u) :
    Valid u ∧ u.ns = 0 ∧ toNS t < toNS u ∧
      u.year ≤ (addNS (1000000000 - (t.ns : Int)) t).year + 5 ∧
      goBit s.Second u.second = true ∧ goBit s.Minute u.minute = true ∧
      goBit s.Hour u.hour = true ∧ goBit s.Month u.month = true ∧
      dayMatches s u = true := by
  have hv9 : t.ns < 1000000000 := by unfold Valid at hv; omega
  have hru : addNS (1000000000 - (t.ns : Int)) t = addNS 1000000000 { t with ns := 0 } :=
    addNS_ext (by push_cast; omega) rfl rfl rfl rfl rfl rfl
  unfold SpecSchedule.next at h
  dsimp only at h
  rw [hru] at h ⊢
  have hv0 : Valid ({ t with ns := 0 } : DateTime) := by
    unfold Valid at hv ⊢
    dsimp only
    omega
  have htick := tick_sec hv0 rfl
  have W := wrapLoop_some htick.1 htick.2.1 (by intro hfa; cases hfa) h
  have ht0 : toNS ({ t with ns := 0 } : DateTime) = toNS t - t.ns := by
    unfold toNS
    dsimp only
    push_cast
    omega
  refine ⟨W.1, W.2.1, ?_, W.2.2.2⟩
  have h1 := W.2.2.1
  have h2 := htick.2.2
  omega

def feb30Sched : SpecSchedule :=
  ⟨1, 1, 1, 1073741824, 4, 9223372036854775935, ⟨0, 0, false, false⟩⟩

theorem goBit_four {m : Nat} (h1 : 1 ≤ m) (h2 : m ≤ 12) (hb : goBit 4 m = true) : m = 2 := by
  interval_cases m <;> revert hb <;> decide

theorem feb30_dayMatches_false {t : DateTime} (hv : Valid t) (hm : t.month = 2) :
    dayMatches feb30Sched t = false := by
  have hd29 : t.day ≤ 29 := by
    unfold Valid at hv
    have h2 : daysInMonth t.year t.month ≤ 29 := by
      rw [hm]; by_cases hl : isLeap t.year <;> simp [daysInMonth, hl]
    omega
  have hd1 : 1 ≤ t.day := by unfold Valid at hv; omega
  have hdom : goBit 1073741824 t.day = false := by
    obtain ⟨y, m, d, hh, mi, s, n⟩ := t
    simp only at hd29 hd1 ⊢
    interval_cases d <;> decide
  unfold dayMatches
  dsimp only [feb30Sched]
  simp only [Bool.false_and, Bool.false_or]
  rw [if_pos (by decide)]
  simp [hdom]

theorem wrapLoop_feb30_none {yl : Nat} {fuel : Nat} :
    ∀ {t : DateTime} {added : Bool},
      Valid t → t.ns = 0 → WInv feb30Sched t added →
      wrapLoop feb30Sched yl fuel t added = none := by
  induction fuel with
  | zero =>
    intro t added hv hns hM
    rfl
  | succ n ih =>
    intro t added hv hns hM
    rw [wrapLoop]
    by_cases hy : yl < t.year
    · rw [if_pos hy]
    · rw [if_neg hy]
      rcases hm : monthLoop feb30Sched 14 t added with ⟨t1, a1⟩ | ⟨t1, a1⟩
      swap
      ·
        dsimp only
        have W := monthLoop_wrap hv hns hM (by unfold Valid at hv; omega) hm
        exact ih W.1 W.2.1 (fun _ => Or.inr ⟨W.2.2.2.1, Or.inr W.2.2.1⟩)
      dsimp only
      have M := monthLoop_done hv hns hM hm
      have hm2 : t1.month = 2 := by
        have := M.2.2.1
        unfold Valid at M
        exact goBit_four (by omega) (by omega) (by exact M.2.2.1)
      rcases hd : dayLoop feb30Sched 40 t1 a1 with ⟨t2, a2⟩ | ⟨t2, a2⟩
      swap
      ·
        dsimp only
        have W := dayLoop_wrap M.1 M.2.1 M.2.2.2.2.2 (by unfold Valid at M; omega) hd
        exact ih W.1 W.2.1 (fun _ => Or.inr ⟨W.2.2.2.1, Or.inr W.2.2.1⟩)
      dsimp only
      have D := dayLoop_done M.1 M.2.1 M.2.2.2.2.2 hd
      have hm2' : t2.month = 2 := by rw [D.2.2.2.1]; exact hm2
      have := feb30_dayMatches_false D.1 hm2'
      rw [D.2.2.1] at this
      cases this

/-- **C1.** For every spec string accepted by `Parse` that yields a
`SpecSchedule`, and every reference instant `t`, a non-zero result of
`Next` is strictly greater than `t` and has its second, minute, hour and
month values in the parsed bit sets, with the day satisfying the DOW/DOM
rule (`dayMatches`). -/
theorem parse_next_in_bitsets (spec : String) (sched : SpecSchedule) (t u : DateTime)
    (hp : Parse spec = some (Except.ok (Schedule.spec sched))) (hv : Valid t)
    (h : sched.next t = some u) :
    Valid u ∧ toNS t < toNS u ∧ goBit sched.Second u.second = true ∧
      goBit sched.Minute u.minute = true ∧ goBit sched.Hour u.hour = true ∧
      goBit sched.Month u.month = true ∧ dayMatches sched u = true := by
  have W := next_some_sound hv h
  exact ⟨W.1, W.2.2.1, W.2.2.2.2⟩

set_option maxRecDepth 10000 in
theorem parse_next_in_bitsets_witness :
    Valid (⟨2012, 7, 15, 8, 30, 0, 0⟩ : DateTime) ∧
      toNS (⟨2012, 7, 9, 15, 0, 0, 0⟩ : DateTime) < toNS (⟨2012, 7, 15, 8, 30, 0, 0⟩ : DateTime) ∧
      goBit 1 0 = true ∧ goBit 1073741824 30 = true ∧ goBit 256 8 = true ∧
      goBit 128 7 = true ∧
      dayMatches ⟨1, 1073741824, 256, 32768, 128, 9223372036854775935, ⟨0, 0, false, false⟩⟩
        ⟨2012, 7, 15, 8, 30, 0, 0⟩ = true :=
  parse_next_in_bitsets "0 30 08 15 Jul ?"
    ⟨1, 1073741824, 256, 32768, 128, 9223372036854775935, ⟨0, 0, false, false⟩⟩
    ⟨2012, 7, 9, 15, 0, 0, 0⟩ ⟨2012, 7, 15, 8, 30, 0, 0⟩
    (by decide) (by decide) (by decide)

/-- **C3.** If no valid instant strictly after `t` and within the year
limit (year of the rounded-up reference plus 5) satisfies the schedule's
bit sets and day rule, `Next` returns the zero instant; in particular the
schedule parsed from `"0 0 0 30 Feb ?"` returns the zero instant from
every reference instant. -/
theorem spec_next_unsatisfiable (s sched : SpecSchedule) (t t' : DateTime)
    (hv : Valid t)
    (hnone : ∀ u : DateTime, Valid u → toNS t < toNS u →
      u.year ≤ (addNS (1000000000 - (t.ns : Int)) t).year + 5 →
      ¬(goBit s.Second u.second = true ∧ goBit s.Minute u.minute = true ∧
        goBit s.Hour u.hour = true ∧ goBit s.Month u.month = true ∧
        dayMatches s u = true))
    (hp : Parse "0 0 0 30 Feb ?" = some (Except.ok (Schedule.spec sched)))
    (hv' : Valid t') :
    s.next t = none ∧ sched.next t' = none := by
  constructor
  · cases hq : s.next t with
    | none => rfl
    | some u =>
      have W := next_some_sound hv hq
      exact absurd
        ⟨W.2.2.2.2.1, W.2.2.2.2.2.1, W.2.2.2.2.2.2.1, W.2.2.2.2.2.2.2.1, W.2.2.2.2.2.2.2.2⟩
        (hnone u W.1 W.2.2.1 W.2.2.2.1)
  · have hfeb : Parse "0 0 0 30 Feb ?" = some (Except.ok (Schedule.spec feb30Sched)) := by
      decide
    rw [hfeb] at hp
    injection hp with hp
    injection hp with hp
    injection hp with hp
    subst hp
    have hv9 : t'.ns < 1000000000 := by unfold Valid at hv'; omega
    have hru : addNS (1000000000 - (t'.ns : Int)) t' = addNS 1000000000 { t' with ns := 0 } :=
      addNS_ext (by push_cast; omega) rfl rfl rfl rfl rfl rfl
    unfold SpecSchedule.next
    dsimp only
    rw [hru]
    have hv0 : Valid ({ t' with ns := 0 } : DateTime) := by
      unfold Valid at hv' ⊢
      dsimp only
      omega
    have htick := tick_sec hv0 rfl
    exact wrapLoop_feb30_none htick.1 htick.2.1 (by intro hfa; cases hfa)

set_option maxRecDepth 10000 in
theorem spec_next_unsatisfiable_witness :
    feb30Sched.next ⟨2012, 7, 9, 15, 0, 0, 0⟩ = none ∧
      feb30Sched.next ⟨2000, 1, 1, 0, 0, 0, 0⟩ = none :=
  spec_next_unsatisfiable feb30Sched feb30Sched
    ⟨2012, 7, 9, 15, 0, 0, 0⟩ ⟨2000, 1, 1, 0, 0, 0, 0⟩
    (by decide)
    (fun u hu _ _ hmatch => by
      have hm2 : u.month = 2 :=
        goBit_four (by unfold Valid at hu; omega) (by unfold Valid at hu; omega)
          hmatch.2.2.2.1
      have := feb30_dayMatches_false hu hm2
      rw [hmatch.2.2.2.2] at this
      cases this)
    (by decide) (by decide)

/-- **C4.** For a `SpecSchedule` without the nth-weekday extension: with
neither the DOM nor the DOW field starred the day matches iff either bit
set matches it, with at least one field starred it matches iff both bit
sets match it; and a `"*"` range carries the star bit and has every bit in
its bounds set (shown for the `dom` and `dow` bounds). -/
theorem dayMatches_dom_dow_rule (s : SpecSchedule) (t : DateTime) (bdom bdow v w : Nat)
    (hx : s.Extra.Valid = false)
    (hrdom : getRange ['*'] dom = some (Except.ok bdom))
    (hrdow : getRange ['*'] dow = some (Except.ok bdow))
    (hv1 : 1 ≤ v) (hv2 : v ≤ 31) (hw : w ≤ 6) :
    (s.Dom &&& starBit = 0 → s.Dow &&& starBit = 0 →
      dayMatches s t = (goBit s.Dom t.day || goBit s.Dow (weekday t))) ∧
    ((s.Dom &&& starBit ≠ 0 ∨ s.Dow &&& starBit ≠ 0) →
      dayMatches s t = (goBit s.Dom t.day && goBit s.Dow (weekday t))) ∧
    (goBit bdom v = true ∧ bdom &&& starBit ≠ 0) ∧
    (goBit bdow w = true ∧ bdow &&& starBit ≠ 0) := by
  have hbdom : bdom = 9223372041149743102 := by
    have h0 : getRange ['*'] dom = some (Except.ok 9223372041149743102) := by decide
    rw [h0] at hrdom
    injection hrdom with h
    injection h with h
    exact h.symm
  have hbdow : bdow = 9223372036854775935 := by
    have h0 : getRange ['*'] dow = some (Except.ok 9223372036854775935) := by decide
    rw [h0] at hrdow
    injection hrdow with h
    injection h with h
    exact h.symm
  subst hbdom
  subst hbdow
  refine ⟨?_, ?_, ?_, ?_⟩
  · intro h1 h2
    unfold dayMatches
    simp only [hx, Bool.false_and, Bool.false_or]
    rw [if_neg (by simp [h1, h2])]
  · intro h
    unfold dayMatches
    simp only [hx, Bool.false_and, Bool.false_or]
    rw [if_pos (by simp only [Bool.or_eq_true, bne_iff_ne]; tauto)]
  · exact ⟨by interval_cases v <;> decide, by decide⟩
  · exact ⟨by interval_cases w <;> decide, by decide⟩

theorem dayMatches_dom_dow_rule_witness :
    (feb30Sched.Dom &&& starBit = 0 → feb30Sched.Dow &&& starBit = 0 →
      dayMatches feb30Sched ⟨2012, 2, 15, 0, 0, 0, 0⟩ =
        (goBit feb30Sched.Dom 15 || goBit feb30Sched.Dow (weekday ⟨2012, 2, 15, 0, 0, 0, 0⟩))) ∧
    ((feb30Sched.Dom &&& starBit ≠ 0 ∨ feb30Sched.Dow &&& starBit ≠ 0) →
      dayMatches feb30Sched ⟨2012, 2, 15, 0, 0, 0, 0⟩ =
        (goBit feb30Sched.Dom 15 && goBit feb30Sched.Dow (weekday ⟨2012, 2, 15, 0, 0, 0, 0⟩))) ∧
    (goBit 9223372041149743102 1 = true ∧ 9223372041149743102 &&& starBit ≠ 0) ∧
    (goBit 9223372036854775935 0 = true ∧ 9223372036854775935 &&& starBit ≠ 0) :=
  dayMatches_dom_dow_rule feb30Sched ⟨2012, 2, 15, 0, 0, 0, 0⟩
    9223372041149743102 9223372036854775935 1 0
    (by decide) (by decide) (by decide) (by decide) (by decide) (by decide)

/-- **C10.** With a valid nth-weekday extension, `dayMatches` ORs the
extension with the ordinary DOW/DOM bit rule: a day satisfying the
extension matches no matter what the bit sets say, and when the extension
fails the result is exactly the plain bit rule. -/
theorem dayMatches_extra_rule (s : SpecSchedule) (t : DateTime) (hx : s.Extra.Valid = true) :
    ((if s.Extra.LastWeek then matchDoWForTheLastWeek t s.Extra.DayOfWeek
      else matchDayOfTheWeekAndWeekInMonth t s.Extra.WeekNumber s.Extra.DayOfWeek) = true →
      dayMatches s t = true) ∧
    ((if s.Extra.LastWeek then matchDoWForTheLastWeek t s.Extra.DayOfWeek
      else matchDayOfTheWeekAndWeekInMonth t s.Extra.WeekNumber s.Extra.DayOfWeek) = false →
      dayMatches s t =
        (if (s.Dom &&& starBit) != 0 || (s.Dow &&& starBit) != 0 then
          goBit s.Dom t.day && goBit s.Dow (weekday t)
        else goBit s.Dom t.day || goBit s.Dow (weekday t))) := by
  constructor
  · intro h
    unfold dayMatches
    simp only [hx, Bool.true_and, h, Bool.true_or]
  · intro h
    unfold dayMatches
    simp only [hx, Bool.true_and, h, Bool.false_or]

theorem dayMatches_extra_rule_witness :
    ((if (⟨0, 0, false, true⟩ : Extra).LastWeek then
        matchDoWForTheLastWeek ⟨2012, 2, 5, 0, 0, 0, 0⟩ 0
      else matchDayOfTheWeekAndWeekInMonth ⟨2012, 2, 5, 0, 0, 0, 0⟩ 0 0) = true →
      dayMatches ⟨1, 1, 1, 4, 4, 2, ⟨0, 0, false, true⟩⟩ ⟨2012, 2, 5, 0, 0, 0, 0⟩ = true) ∧
    ((if (⟨0, 0, false, true⟩ : Extra).LastWeek then
        matchDoWForTheLastWeek ⟨2012, 2, 5, 0, 0, 0, 0⟩ 0
      else matchDayOfTheWeekAndWeekInMonth ⟨2012, 2, 5, 0, 0, 0, 0⟩ 0 0) = false →
      dayMatches ⟨1, 1, 1, 4, 4, 2, ⟨0, 0, false, true⟩⟩ ⟨2012, 2, 5, 0, 0, 0, 0⟩ =
        (if (4 &&& starBit : Nat) != 0 || (2 &&& starBit : Nat) != 0 then
          goBit 4 5 && goBit 2 (weekday ⟨2012, 2, 5, 0, 0, 0, 0⟩)
        else goBit 4 5 || goBit 2 (weekday ⟨2012, 2, 5, 0, 0, 0, 0⟩))) :=
  dayMatches_extra_rule ⟨1, 1, 1, 4, 4, 2, ⟨0, 0, false, true⟩⟩ ⟨2012, 2, 5, 0, 0, 0, 0⟩ rfl

/-- **C5 (amended).** In the `startAt` revision (`src/unnamed/part_003`),
`Every` clamps the delay to at least one second and truncates the
sub-second remainder, and `Next` lands on a whole second: its result is
the reference instant plus the delay, truncated to the second boundary. -/
theorem every_clamps_truncates (d : Int) (t : DateTime) (hv : Valid t) :
    1000000000 ≤ (StartAt.Every d).Delay ∧
      (StartAt.Every d).Delay % 1000000000 = 0 ∧
      ((StartAt.Every d).next t).ns = 0 ∧
      toNS ((StartAt.Every d).next t) = toNS t - t.ns + (StartAt.Every d).Delay := by
  have hD : (StartAt.Every d).Delay =
      (if d < 1000000000 then 1000000000 else d) -
        (if d < 1000000000 then 1000000000 else d) % 1000000000 := rfl
  have hD1 : 1000000000 ≤ (StartAt.Every d).Delay := by
    rw [hD]; split_ifs with h <;> omega
  have hD2 : (StartAt.Every d).Delay % 1000000000 = 0 := by
    rw [hD]; split_ifs with h <;> omega
  have hnext : (StartAt.Every d).next t =
      addNS ((StartAt.Every d).Delay - (t.ns : Int)) t := rfl
  refine ⟨hD1, hD2, ?_, ?_⟩
  · rw [hnext]
    obtain ⟨y, m, dd, hh, mi, s, n⟩ := t
    unfold addNS
    dsimp only
    have he : ((n : Int) + ((StartAt.Every d).Delay - (n : Int))) = (StartAt.Every d).Delay := by
      ring
    rw [he, hD2]
    rfl
  · rw [hnext]
    unfold Valid at hv
    rw [toNS_addNS (by omega) t (by omega) (by omega) (by omega) (by omega)]
    omega

theorem every_clamps_truncates_witness :
    1000000000 ≤ (StartAt.Every 500000000).Delay ∧
      (StartAt.Every 500000000).Delay % 1000000000 = 0 ∧
      ((StartAt.Every 500000000).next ⟨2000, 1, 1, 0, 0, 0, 250⟩).ns = 0 ∧
      toNS ((StartAt.Every 500000000).next ⟨2000, 1, 1, 0, 0, 0, 250⟩) =
        toNS (⟨2000, 1, 1, 0, 0, 0, 250⟩ : DateTime) - 250 + (StartAt.Every 500000000).Delay :=
  every_clamps_truncates 500000000 ⟨2000, 1, 1, 0, 0, 0, 250⟩ (by decide)

theorem every_clamps_truncates_cex :
    (Every 500000000).Delay = 500000000 ∧
      ((Every 500000000).next ⟨2000, 1, 1, 0, 0, 0, 0⟩).ns = 500000000 := by
  decide

/-- **C6 (amended).** `FixedSchedule` behaves as the one-off claim says:
its configured instant is returned exactly while it is still strictly in
the future, and the zero instant afterwards.  `ExactSchedule.Next`, by
contrast, returns the configured instant unconditionally; the one-shot
behaviour of `ExactSchedule` is carried by its `isOneOff` marker instead. -/
theorem fixed_one_off (s : FixedSchedule) (e : ExactSchedule) (t : DateTime) :
    (dtAfter s.FixedTime t = true → s.next t = some s.FixedTime) ∧
    (dtAfter s.FixedTime t = false → s.next t = none) ∧
    e.next t = e.Schedule ∧ e.isOneOff = true := by
  refine ⟨fun h => ?_, fun h => ?_, rfl, rfl⟩
  · unfold FixedSchedule.next
    rw [if_pos h]
  · unfold FixedSchedule.next
    rw [if_neg (by simp [h])]

theorem fixed_one_off_witness :
    (dtAfter (⟨2000, 1, 2, 0, 0, 0, 0⟩ : DateTime) ⟨2000, 1, 1, 0, 0, 0, 0⟩ = true →
      FixedSchedule.next ⟨⟨2000, 1, 2, 0, 0, 0, 0⟩⟩ ⟨2000, 1, 1, 0, 0, 0, 0⟩ =
        some ⟨2000, 1, 2, 0, 0, 0, 0⟩) ∧
    (dtAfter (⟨2000, 1, 2, 0, 0, 0, 0⟩ : DateTime) ⟨2000, 1, 1, 0, 0, 0, 0⟩ = false →
      FixedSchedule.next ⟨⟨2000, 1, 2, 0, 0, 0, 0⟩⟩ ⟨2000, 1, 1, 0, 0, 0, 0⟩ = none) ∧
    ExactSchedule.next ⟨⟨2000, 1, 2, 0, 0, 0, 0⟩⟩ ⟨2000, 1, 1, 0, 0, 0, 0⟩ =
      (⟨2000, 1, 2, 0, 0, 0, 0⟩ : DateTime) ∧
    ExactSchedule.isOneOff ⟨⟨2000, 1, 2, 0, 0, 0, 0⟩⟩ = true :=
  fixed_one_off ⟨⟨2000, 1, 2, 0, 0, 0, 0⟩⟩ ⟨⟨2000, 1, 2, 0, 0, 0, 0⟩⟩ ⟨2000, 1, 1, 0, 0, 0, 0⟩

theorem fixed_one_off_cex :
    dtAfter (⟨2000, 1, 2, 0, 0, 0, 0⟩ : DateTime) ⟨2005, 1, 1, 0, 0, 0, 0⟩ = false ∧
      ExactSchedule.next ⟨⟨2000, 1, 2, 0, 0, 0, 0⟩⟩ ⟨2005, 1, 1, 0, 0, 0, 0⟩ =
        (⟨2000, 1, 2, 0, 0, 0, 0⟩ : DateTime) ∧
      (⟨2000, 1, 2, 0, 0, 0, 0⟩ : DateTime) ≠ zeroTime := by
  decide

/-- **C7.** A zero step is not rejected: the bounds checks of `getRange`
pass and the `for i := min; i <= max; i += step` loop of `getBits` never
terminates, so parsing a `"*/0"` field hangs instead of failing with a
descriptive error (`parser_test.go` expects the error `"should be a
positive number"`). -/
theorem zero_step_diverges (mx fuel i bits : Nat) (h : i ≤ mx) :
    getBitsLoop mx 0 fuel i bits = none ∧ Parse "*/0 * * * *" = none := by
  constructor
  · induction fuel generalizing bits with
    | zero => rfl
    | succ n ih => rw [getBitsLoop, if_pos h]; exact ih _
  · decide

set_option maxRecDepth 4000 in
theorem zero_step_diverges_witness :
    (0 : Nat) ≤ 5 ∧ (getBitsLoop 5 0 7 0 0 = none ∧ Parse "*/0 * * * *" = none) :=
  ⟨by decide, zero_step_diverges 5 7 0 0 (by decide)⟩

theorem byTimeLess_asymm {a b : Store.Entry} (h : Store.byTimeLess a b = true) :
    Store.byTimeLess b a = false := by
  unfold Store.byTimeLess at h ⊢
  cases ha : a.Next <;> cases hb : b.Next <;> rw [ha, hb] at h <;> simp_all <;> omega

theorem insertByTime_sorted (e : Store.Entry) :
    ∀ l : List Store.Entry, Store.isSortedByTime l = true →
      Store.isSortedByTime (Store.insertByTime e l) = true ∧
      ∀ z zs, Store.insertByTime e l = z :: zs → z = e ∨ ∃ rest, l = z :: rest := by
  intro l
  induction l with
  | nil =>
    intro _
    refine ⟨rfl, ?_⟩
    intro z zs h
    unfold Store.insertByTime at h
    injection h with h1 h2
    exact Or.inl h1.symm
  | cons x xs ih =>
    intro hs
    have hs' : Store.isSortedByTime xs = true := by
      cases xs with
      | nil => rfl
      | cons y ys =>
        unfold Store.isSortedByTime at hs
        exact (Bool.and_eq_true _ _ |>.mp hs).2
    obtain ⟨ih1, ih2⟩ := ih hs'
    by_cases hb : Store.byTimeLess e x = true
    · constructor
      · unfold Store.insertByTime
        rw [if_pos hb]
        unfold Store.isSortedByTime
        rw [byTimeLess_asymm hb, hs]
        rfl
      · intro z zs h
        unfold Store.insertByTime at h
        rw [if_pos hb] at h
        injection h with h1 h2
        exact Or.inl h1.symm
    · have hbf : Store.byTimeLess e x = false := by
        cases hq : Store.byTimeLess e x
        · rfl
        · exact absurd hq hb
      constructor
      · unfold Store.insertByTime
        rw [if_neg hb]
        cases hi : Store.insertByTime e xs with
        | nil => rfl
        | cons z zs =>
          unfold Store.isSortedByTime
          have hz : Store.byTimeLess z x = false := by
            rcases ih2 z zs hi with hze | ⟨rest, hxs⟩
            · rw [hze]; exact hbf
            · subst hxs
              unfold Store.isSortedByTime at hs
              have := (Bool.and_eq_true _ _ |>.mp hs).1
              cases hq : Store.byTimeLess z x
              · rfl
              · rw [hq] at this; cases this
          rw [hz]
          have := ih1
          rw [hi] at this
          rw [this]
          rfl
      · intro z zs h
        unfold Store.insertByTime at h
        rw [if_neg hb] at h
        injection h with h1 h2
        exact Or.inr ⟨_, by rw [h1]⟩

theorem sortByTime_sorted (l : List Store.Entry) :
    Store.isSortedByTime (Store.sortByTime l) = true := by
  induction l with
  | nil => rfl
  | cons e es ih => exact (insertByTime_sorted e (Store.sortByTime es) ih).1

/-- **C8 (amended).** `Snapshot` copies the entries in stored order — the
source performs no sorting there, so a snapshot need not be ordered by
`Next`.  The `byTime` ordering is established only by the in-place sort
inside the store's `Next`, whose resulting slice is sorted ascending with
zero-`Next` entries last. -/
theorem snapshot_stored_order (entries : List Store.Entry) (e : Store.Entry) :
    Store.Snapshot entries = entries ∧
      Store.Register entries e = entries ++ [e] ∧
      Store.isSortedByTime (Store.sortByTime entries) = true ∧
      (Store.NextDue entries).2 = Store.sortByTime entries := by
  refine ⟨rfl, rfl, sortByTime_sorted entries, ?_⟩
  unfold Store.NextDue
  cases h : Store.sortByTime entries <;> rfl

theorem snapshot_stored_order_cex :
    Store.isSortedByTime
      (Store.Snapshot (Store.Register (Store.Register [] ⟨1, some 10⟩) ⟨2, some 5⟩)) = false := by
  decide

theorem skip_reach_inv {st : Skip.SkipState} (h : Skip.Reachable st) :
    st.running ≤ 1 ∧ (st.free = true → st.running = 0) := by
  induction h with
  | init => exact ⟨by decide, fun _ => rfl⟩
  | start h ih =>
    rename_i st'
    unfold Skip.step
    by_cases hf : st'.free = true
    · rw [if_pos hf]
      have h0 := ih.2 hf
      refine ⟨?_, ?_⟩
      · dsimp only; omega
      · dsimp only; intro hc; cases hc
    · rw [if_neg hf]
      exact ⟨ih.1, ih.2⟩
  | finish h hr ih =>
    unfold Skip.step
    refine ⟨?_, ?_⟩ <;> dsimp only <;> omega

/-- **C9.** In every reachable state of a `SkipIfStillRunning`-wrapped job
at most one activation is running; an activation arriving while the slot
is taken only increments the skip counter, one arriving while it is free
takes the slot and runs, and a completion returns the token. -/
theorem skip_at_most_one (st : Skip.SkipState) (h : Skip.Reachable st) :
    st.running ≤ 1 ∧
      (st.free = false → Skip.step st .start = ⟨st.free, st.running, st.skipped + 1⟩) ∧
      (st.free = true → Skip.step st .start = ⟨false, st.running + 1, st.skipped⟩) ∧
      Skip.step st .finish = ⟨true, st.running - 1, st.skipped⟩ := by
  refine ⟨(skip_reach_inv h).1, ?_, ?_, rfl⟩
  · intro hf
    unfold Skip.step
    rw [if_neg (by rw [hf]; simp)]
  · intro hf
    unfold Skip.step
    rw [if_pos hf]

theorem skip_at_most_one_witness :
    (⟨false, 1, 0⟩ : Skip.SkipState).running ≤ 1 ∧
      ((⟨false, 1, 0⟩ : Skip.SkipState).free = false →
        Skip.step ⟨false, 1, 0⟩ .start = ⟨false, 1, 1⟩) ∧
      ((⟨false, 1, 0⟩ : Skip.SkipState).free = true →
        Skip.step ⟨false, 1, 0⟩ .start = ⟨false, 2, 0⟩) ∧
      Skip.step ⟨false, 1, 0⟩ .finish = ⟨true, 0, 0⟩ :=
  skip_at_most_one ⟨false, 1, 0⟩ (Skip.Reachable.start Skip.Reachable.init)

theorem isLeapYear_eq (y : Nat) : isLeapYear y = isLeap y := by
  unfold isLeapYear isLeap
  by_cases h400 : y % 400 = 0
  · simp [h400]
  · by_cases h100 : y % 100 = 0
    · simp [beq_iff_eq, bne_iff_ne, h400, h100]
    · by_cases h4 : y % 4 = 0 <;> simp [beq_iff_eq, bne_iff_ne, h400, h100, h4]

theorem fetchMonthEndDay_eq {y m : Nat} (h1 : 1 ≤ m) (h2 : m ≤ 12) :
    fetchMonthEndDay m y = daysInMonth y m := by
  unfold fetchMonthEndDay monthEndDay daysInMonth
  rw [isLeapYear_eq]
  interval_cases m <;> simp [isLeap] <;> split <;> rfl

theorem daysSinceYear1_d_mono {y m d d' : Nat} (h : d ≤ d') :
    daysSinceYear1 y m d ≤ daysSinceYear1 y m d' := by
  unfold daysSinceYear1
  omega

theorem daysSinceYear1_first_le :
    ∀ n y m, 1 ≤ y → 1 ≤ m → m ≤ 12 → ∀ y' m', 1 ≤ m' → m' ≤ 12 →
      y' * 12 + m' = y * 12 + m + n →
      daysSinceYear1 y m 1 ≤ daysSinceYear1 y' m' 1 := by
  intro n
  induction n with
  | zero =>
    intro y m hy hm1 hm2 y' m' hm1' hm2' hidx
    have hy' : y' = y ∧ m' = m := by omega
    rw [hy'.1, hy'.2]
  | succ n ih =>
    intro y m hy hm1 hm2 y' m' hm1' hm2' hidx
    by_cases h12 : m = 12
    · subst h12
      have hstep : daysSinceYear1 y 12 1 < daysSinceYear1 (y + 1) 1 1 :=
        daysLt_nextYear hy (by omega) (by omega) (by omega)
          (by have := daysInMonth_pos y 12; omega)
      have := ih (y + 1) 1 (by omega) (by omega) (by omega) y' m' hm1' hm2' (by omega)
      omega
    · have hstep : daysSinceYear1 y m 1 < daysSinceYear1 y (m + 1) 1 :=
        daysLt_nextMonth hm1 (by omega) (by have := daysInMonth_pos y m; omega)
      have := ih y (m + 1) hy (by omega) (by omega) y' m' hm1' hm2' (by omega)
      omega

theorem daysSinceYear1_month_mono {y1 m1 d1 y2 m2 d2 : Nat} (hy1 : 1 ≤ y1)
    (hm11 : 1 ≤ m1) (hm12 : m1 ≤ 12) (hd10 : 1 ≤ d1) (hd1 : d1 ≤ daysInMonth y1 m1)
    (hm21 : 1 ≤ m2) (hm22 : m2 ≤ 12) (hd2 : 1 ≤ d2)
    (hidx : y1 * 12 + m1 < y2 * 12 + m2) :
    daysSinceYear1 y1 m1 d1 < daysSinceYear1 y2 m2 d2 := by
  have hstep : daysSinceYear1 y1 m1 d1 <
      daysSinceYear1 (if m1 = 12 then y1 + 1 else y1) (if m1 = 12 then 1 else m1 + 1) 1 := by
    by_cases h12 : m1 = 12
    · subst h12
      simp only [if_pos rfl]
      exact daysLt_nextYear hy1 (by omega) (by omega) hd10 hd1
    · rw [if_neg h12, if_neg h12]
      exact daysLt_nextMonth hm11 (by omega) hd1
  have hle : daysSinceYear1 (if m1 = 12 then y1 + 1 else y1) (if m1 = 12 then 1 else m1 + 1) 1 ≤
      daysSinceYear1 y2 m2 1 := by
    by_cases h12 : m1 = 12
    · subst h12
      simp only [if_pos rfl]
      exact daysSinceYear1_first_le (y2 * 12 + m2 - ((y1 + 1) * 12 + 1)) (y1 + 1) 1 (by omega)
        (by omega) (by omega) y2 m2 hm21 hm22 (by omega)
    · rw [if_neg h12, if_neg h12]
      exact daysSinceYear1_first_le (y2 * 12 + m2 - (y1 * 12 + m1 + 1)) y1 (m1 + 1) hy1
        (by omega) (by omega) y2 m2 hm21 hm22 (by omega)
  have hdm := daysSinceYear1_d_mono (y := y2) (m := m2) hd2
  omega

theorem toNS_month_order {t1 t2 : DateTime} (hv1 : Valid t1) (hv2 : Valid t2)
    (h : toNS t1 ≤ toNS t2) :
    t1.year * 12 + t1.month < t2.year * 12 + t2.month ∨
      (t1.year = t2.year ∧ t1.month = t2.month ∧ t1.day ≤ t2.day) := by
  unfold Valid at hv1 hv2
  rcases Nat.lt_trichotomy (t1.year * 12 + t1.month) (t2.year * 12 + t2.month) with hlt | heq | hgt
  · exact Or.inl hlt
  · have hy : t1.year = t2.year ∧ t1.month = t2.month := by omega
    refine Or.inr ⟨hy.1, hy.2, ?_⟩
    by_contra hd
    have hdays : daysSinceYear1 t2.year t2.month t2.day < daysSinceYear1 t1.year t1.month t1.day := by
      rw [hy.1, hy.2]
      unfold daysSinceYear1
      omega
    have := toNS_lt_of_days_lt (by unfold Valid; tauto) hdays
    omega
  · have hdays : daysSinceYear1 t2.year t2.month t2.day < daysSinceYear1 t1.year t1.month t1.day :=
      daysSinceYear1_month_mono (by omega) (by omega) (by omega) (by omega) (by omega) (by omega)
        (by omega) (by omega) hgt
    have := toNS_lt_of_days_lt (by unfold Valid; tauto) hdays
    omega

theorem eomNext_eq {t : DateTime} (hv : Valid t) :
    ∃ Y M : Nat, EomSchedule.next ⟨⟩ t = ⟨Y, M, daysInMonth Y M, 0, 0, 0, 0⟩ ∧
      1 ≤ Y ∧ 1 ≤ M ∧ M ≤ 12 ∧
      t.year * 12 + t.month ≤ Y * 12 + M ∧ Y * 12 + M ≤ t.year * 12 + t.month + 1 ∧
      (t.day < daysInMonth t.year t.month → Y * 12 + M = t.year * 12 + t.month) ∧
      (daysInMonth t.year t.month ≤ t.day → Y * 12 + M = t.year * 12 + t.month + 1) := by
  unfold Valid at hv
  unfold EomSchedule.next
  dsimp only
  rw [fetchMonthEndDay_eq (by omega) (by omega)]
  by_cases hd : daysInMonth t.year t.month ≤ t.day
  · rw [if_pos hd]
    by_cases h12 : t.month = 12
    · rw [if_pos (by simp [h12])]
      refine ⟨t.year + 1, 1, ?_, by omega, by omega, by omega, by omega, by omega,
        fun h => by omega, fun _ => by omega⟩
      rw [h12]
      have h31 : daysInMonth t.year 12 = 31 := rfl
      have h31' : daysInMonth (t.year + 1) 1 = 31 := rfl
      rw [h31, ← h31']
      exact dateYMDHMS_eq (le_refl _) 0 0 0
    · rw [if_neg (by simp [h12])]
      rw [fetchMonthEndDay_eq (by omega) (by omega)]
      refine ⟨t.year, t.month + 1, ?_, by omega, by omega, by omega, by omega, by omega,
        fun h => by omega, fun _ => by omega⟩
      exact dateYMDHMS_eq (le_refl _) 0 0 0
  · rw [if_neg hd]
    refine ⟨t.year, t.month, ?_, by omega, by omega, by omega, by omega, by omega,
      fun _ => by omega, fun h => by omega⟩
    exact dateYMDHMS_eq (le_refl _) 0 0 0

/-- **C2 (amended).** `Next` is a monotone pure function for the schedule
implementations that have one: the plain constant-delay schedule (with a
non-negative delay), the exact schedule (whose `Next` is constant), and
the end-of-month schedule.  The fixed one-off schedule, `SpecSchedule`
near its five-year horizon, and the stateful run-on-startup schedule
falsify the original universal claim. -/
theorem next_monotone (c : ConstantDelaySchedule) (e : ExactSchedule) (g : EomSchedule)
    (t1 t2 : DateTime) (hdel : 0 ≤ c.Delay) (hv1 : Valid t1) (hv2 : Valid t2)
    (h12 : toNS t1 ≤ toNS t2) :
    toNS (c.next t1) ≤ toNS (c.next t2) ∧
      e.next t1 = e.next t2 ∧
      toNS (g.next t1) ≤ toNS (g.next t2) := by
  refine ⟨?_, rfl, ?_⟩
  · unfold ConstantDelaySchedule.next
    have h1 := hv1
    have h2 := hv2
    unfold Valid at h1 h2
    rw [toNS_addNS hdel t1 (by omega) (by omega) (by omega) (by omega),
        toNS_addNS hdel t2 (by omega) (by omega) (by omega) (by omega)]
    omega
  · obtain ⟨Y1, M1, hE1, hY1, hM11, hM12, hl1, hu1, hc1, hc2⟩ := eomNext_eq hv1
    obtain ⟨Y2, M2, hE2, hY2, hM21, hM22, hl2, hu2, hd1, hd2⟩ := eomNext_eq hv2
    rw [hE1, hE2]
    have horder := toNS_month_order hv1 hv2 h12
    have hI : Y1 * 12 + M1 ≤ Y2 * 12 + M2 := by
      rcases horder with hlt | ⟨hy, hm, hd⟩
      · omega
      · have hμ : t1.year * 12 + t1.month = t2.year * 12 + t2.month := by rw [hy, hm]
        have hdim : daysInMonth t1.year t1.month = daysInMonth t2.year t2.month := by
          rw [hy, hm]
        by_cases hcase : t1.day < daysInMonth t1.year t1.month
        · have := hc1 hcase
          omega
        · have hx1 := hc2 (by omega)
          have hx2 := hd2 (by omega)
          omega
    rcases Nat.lt_or_ge (Y1 * 12 + M1) (Y2 * 12 + M2) with hlt | hge
    · have hdays : daysSinceYear1 Y1 M1 (daysInMonth Y1 M1) <
          daysSinceYear1 Y2 M2 (daysInMonth Y2 M2) :=
        daysSinceYear1_month_mono hY1 hM11 hM12 (daysInMonth_pos Y1 M1) (le_refl _)
          hM21 hM22 (daysInMonth_pos Y2 M2) hlt
      have hvv : Valid (⟨Y1, M1, daysInMonth Y1 M1, 0, 0, 0, 0⟩ : DateTime) := by
        unfold Valid
        dsimp only
        exact ⟨hY1, hM11, hM12, daysInMonth_pos Y1 M1, le_refl _, by omega, by omega,
          by omega, by omega⟩
      have := toNS_lt_of_days_lt (u := ⟨Y2, M2, daysInMonth Y2 M2, 0, 0, 0, 0⟩) hvv hdays
      omega
    · have hEq : Y1 = Y2 ∧ M1 = M2 := by omega
      rw [hEq.1, hEq.2]

theorem next_monotone_witness :
    toNS (ConstantDelaySchedule.next ⟨3600000000000⟩ ⟨2000, 1, 31, 12, 0, 0, 0⟩) ≤
        toNS (ConstantDelaySchedule.next ⟨3600000000000⟩ ⟨2000, 2, 1, 0, 0, 0, 0⟩) ∧
      ExactSchedule.next ⟨⟨2020, 5, 5, 0, 0, 0, 0⟩⟩ ⟨2000, 1, 31, 12, 0, 0, 0⟩ =
        ExactSchedule.next ⟨⟨2020, 5, 5, 0, 0, 0, 0⟩⟩ ⟨2000, 2, 1, 0, 0, 0, 0⟩ ∧
      toNS (EomSchedule.next ⟨⟩ ⟨2000, 1, 31, 12, 0, 0, 0⟩) ≤
        toNS (EomSchedule.next ⟨⟩ ⟨2000, 2, 1, 0, 0, 0, 0⟩) :=
  next_monotone ⟨3600000000000⟩ ⟨⟨2020, 5, 5, 0, 0, 0, 0⟩⟩ ⟨⟩
    ⟨2000, 1, 31, 12, 0, 0, 0⟩ ⟨2000, 2, 1, 0, 0, 0, 0⟩
    (by decide) (by decide) (by decide) (by decide)

set_option maxRecDepth 10000 in
theorem next_monotone_cex :
    (toNS (⟨2000, 1, 1, 0, 0, 0, 0⟩ : DateTime) ≤ toNS (⟨2000, 1, 3, 0, 0, 0, 0⟩ : DateTime) ∧
      FixedSchedule.next ⟨⟨2000, 1, 2, 0, 0, 0, 0⟩⟩ ⟨2000, 1, 1, 0, 0, 0, 0⟩ =
        some ⟨2000, 1, 2, 0, 0, 0, 0⟩ ∧
      FixedSchedule.next ⟨⟨2000, 1, 2, 0, 0, 0, 0⟩⟩ ⟨2000, 1, 3, 0, 0, 0, 0⟩ = none ∧
      ¬toNS (⟨2000, 1, 2, 0, 0, 0, 0⟩ : DateTime) ≤ toNS zeroTime) ∧
    (toNS (⟨2095, 6, 1, 0, 0, 0, 0⟩ : DateTime) ≤ toNS (⟨2096, 3, 1, 0, 0, 0, 0⟩ : DateTime) ∧
      SpecSchedule.next ⟨1, 1, 1, 536870912, 4, 9223372036854775935, ⟨0, 0, false, false⟩⟩
        ⟨2095, 6, 1, 0, 0, 0, 0⟩ = some ⟨2096, 2, 29, 0, 0, 0, 0⟩ ∧
      SpecSchedule.next ⟨1, 1, 1, 536870912, 4, 9223372036854775935, ⟨0, 0, false, false⟩⟩
        ⟨2096, 3, 1, 0, 0, 0, 0⟩ = none ∧
      ¬toNS (⟨2096, 2, 29, 0, 0, 0, 0⟩ : DateTime) ≤ toNS zeroTime) ∧
    ((RunOnStartupSchedule.next ⟨fun _ => none, false⟩ ⟨2020, 1, 1, 0, 0, 0, 0⟩
        ⟨1990, 1, 1, 0, 0, 0, 0⟩).1 = some ⟨2020, 1, 1, 0, 0, 0, 0⟩ ∧
      (RunOnStartupSchedule.next ⟨fun _ => none, false⟩ ⟨2021, 5, 5, 0, 0, 0, 0⟩
        ⟨1990, 1, 1, 0, 0, 0, 0⟩).1 = some ⟨2021, 5, 5, 0, 0, 0, 0⟩) := by
  refine ⟨⟨by decide, by decide, by decide, by decide⟩,
    ⟨by decide, by decide, by decide, by decide⟩, by decide, by decide⟩

end Cron
